import Mathlib

set_option allowUnsafeReducibility true

attribute [local semireducible] Rat.add Rat.sub Rat.mul Rat.inv Rat.ofScientific

/-!
Shallow embedding of the thread-music generator core
(`src/unnamed/part_003`, `src/include/Types.h`, `src/include/Constants.h`,
`src/main.cpp`) and proofs of the specification claims.

Conventions of the embedding:
* C++ `double` values (wall/cpu times, intermediate tick arithmetic) are
  modelled as `ℚ`; `static_cast<int>` of a double is truncation toward zero
  (`truncInt`), `std::round` is rounding half away from zero (`roundHalfAway`).
* C++ `int` division truncates toward zero, modelled with `Int.tdiv`.
  Indices that C++ converts to `size_t` after a non-negativity guard are
  modelled with `Int.emod` / `Int.toNat`.
* Each worker thread's loop body becomes a step function on an explicit
  state record, consuming one `(wallTime, cpuTime)` sample per iteration
  (the values the loop reads from the clocks at its head); a run is a fold
  of the step function over a finite sample list.  The `running` flag is
  never cleared anywhere in the sources, so a loop terminates only through
  its duration check, modelled by the `finished` flag.
* MIDI events are accumulated in emission order in an `events` list; marker
  labels are represented by the phase index they carry.
-/

namespace ThreadMusic

/-- Truncation toward zero of a rational number, the behaviour of C++
`static_cast<int>` applied to a `double`. -/
def truncInt (q : ℚ) : ℤ := if 0 ≤ q then ⌊q⌋ else ⌈q⌉

/-- Rounding half away from zero, the behaviour of C++ `std::round`. -/
def roundHalfAway (q : ℚ) : ℤ := if 0 ≤ q then ⌊q + 1/2⌋ else ⌈q - 1/2⌉

/-- Constants.h: `SCHEDULE_THRESHOLD = 0.001`, the CPU/wall time quotient
above which a thread counts as scheduled. -/
def SCHEDULE_THRESHOLD : ℚ := 1/1000

/-- Constants.h drum note: `KICK = 36`. -/
def KICK : ℤ := 36

/-- Constants.h drum note: `SNARE = 38`. -/
def SNARE : ℤ := 38

/-- Constants.h drum note: `CLOSED_HAT = 42`. -/
def CLOSED_HAT : ℤ := 42

/-- Constants.h drum note: `OPEN_HAT = 46`. -/
def OPEN_HAT : ℤ := 46

/-- Constants.h drum note: `CRASH = 49`. -/
def CRASH : ℤ := 49

/-- Types.h `Note`: pitch, velocity and duration in ticks. -/
structure Note where
  pitch : ℤ
  velocity : ℤ
  duration : ℤ
deriving Repr, DecidableEq

/-- Types.h `Snippet`: a note list plus the mutable cursor
`currentNoteIndex` (an `int` in the source, initialised to 0). -/
structure Snippet where
  notes : List Note
  currentNoteIndex : ℤ := 0
deriving Repr, DecidableEq

/-- Types.h `Snippet::reset`: set the cursor back to 0. -/
def Snippet.reset (s : Snippet) : Snippet := { s with currentNoteIndex := 0 }

/-- Types.h `Snippet::getNextNote`: return `nullptr` (here `none`) on an
empty note list, otherwise return the note under the cursor and advance the
cursor by one modulo the length (the C++ `%` acts on non-negative values
here, so it agrees with `Int.emod`).  The mutated snippet is returned as
the second component. -/
def Snippet.getNextNote (s : Snippet) : Option Note × Snippet :=
  if s.notes = [] then (none, s)
  else (s.notes[s.currentNoteIndex.toNat]?,
        { s with currentNoteIndex := (s.currentNoteIndex + 1) % (s.notes.length : ℤ) })

/-- Types.h `DrumPattern`: three 16-slot step grids plus a 16-slot
velocity grid, modelled as lists read through `getD`. -/
structure DrumPattern where
  kick : List Bool
  snare : List Bool
  hihat : List Bool
  velocities : List ℤ
deriving Repr, DecidableEq

/-- The timing constants `TPQ`, `TEMPO`, `BEATS_PER_BAR` of Constants.h /
main.cpp (the copies in the repository differ in `TEMPO`, so they are kept
as parameters). -/
structure MidiParams where
  TPQ : ℤ
  TEMPO : ℤ
  BEATS_PER_BAR : ℤ
deriving Repr, DecidableEq

/-- The factor `TPQ * (TEMPO / 60.0)` converting seconds to ticks. -/
def MidiParams.ticksPerSec (p : MidiParams) : ℚ :=
  (p.TPQ : ℚ) * ((p.TEMPO : ℚ) / 60)

/-- One bar in ticks: `BEATS_PER_BAR * TPQ`. -/
def MidiParams.ticksPerBar (p : MidiParams) : ℤ := p.BEATS_PER_BAR * p.TPQ

/-- The scheduling quotient of the sampler (called `schedulingRatio` in the
source): `Δcpu / Δwall` when `Δwall > 0`, and `0` otherwise
(part_003 line 964, main.cpp line 496). -/
def schedQuotient (wallTimeDelta cpuTimeDelta : ℚ) : ℚ :=
  if wallTimeDelta > 0 then cpuTimeDelta / wallTimeDelta else 0

/-- The derived boolean scheduling signal:
`schedulingRatio > SCHEDULE_THRESHOLD` (part_003 line 967). -/
def isScheduledOf (wallTimeDelta cpuTimeDelta : ℚ) : Bool :=
  schedQuotient wallTimeDelta cpuTimeDelta > SCHEDULE_THRESHOLD

/-- A timeline event as appended to the shared `midifile` object.  Marker
events carry the phase index `n` of their label.  `endMarker` stands for
the final marker the thread functions append after their loop. -/
inductive TimelineEvent where
  | trackName (track tick : ℤ)
  | noteOn (track tick channel pitch velocity : ℤ)
  | noteOff (track tick channel pitch : ℤ)
  | marker (track tick phase : ℤ)
  | endMarker (track tick : ℤ)
deriving Repr, DecidableEq

/-- The tick stamp of an event, the sort key of the final ordering. -/
def TimelineEvent.tick : TimelineEvent → ℤ
  | .trackName _ t => t
  | .noteOn _ t _ _ _ => t
  | .noteOff _ t _ _ => t
  | .marker _ t _ => t
  | .endMarker _ t => t

/-! ### Melodic worker (part_003 `melodicThreadFunction`, lines 895-1090) -/

/-- The configuration a melodic worker receives: timing parameters, its
track and channel, the run duration, the phase count, and the cpu clock
value read once before the loop (`getCpuTime()` at line 919). -/
structure MelodicConfig where
  params : MidiParams
  track : ℤ
  channel : ℤ
  durationSec : ℤ
  numPhases : ℤ
  startCpuTime : ℚ
deriving Repr, DecidableEq

/-- Line 898: `initialTotalTicks = durationSec * (TPQ * (TEMPO / 60.0))`
(a `double` in the source). -/
def initialTotalTicks (c : MelodicConfig) : ℚ :=
  (c.durationSec : ℚ) * c.params.ticksPerSec

/-- Line 899: raw ticks per phase, `initialTotalTicks / numPhases` when
`numPhases > 0`. -/
def initialTicksPerPhase (c : MelodicConfig) : ℚ :=
  if c.numPhases > 0 then initialTotalTicks c / (c.numPhases : ℚ)
  else initialTotalTicks c

/-- Lines 902-910: the bar-aligned phase length.  The raw phase length is
rounded to the nearest whole multiple of one bar, a zero result is lifted
to one bar, and a negative result is clamped to 0. -/
def adjustedTicksPerPhase (c : MelodicConfig) : ℤ :=
  let ticksPerBar := c.params.ticksPerBar
  let t :=
    if ticksPerBar > 0 ∧ initialTicksPerPhase c > 0 then
      let k := roundHalfAway (initialTicksPerPhase c / (ticksPerBar : ℚ)) * ticksPerBar
      if k = 0 then ticksPerBar else k
    else truncInt (initialTicksPerPhase c)
  if t < 0 then 0 else t

/-- Line 913: `adjustedTotalTicks = adjustedTicksPerPhase * numPhases`. -/
def adjustedTotalTicks (c : MelodicConfig) : ℤ :=
  adjustedTicksPerPhase c * c.numPhases

/-- Line 914: the adjusted duration in seconds,
`adjustedTotalTicks / (TPQ * (TEMPO / 60.0))` when `TPQ` and `TEMPO` are
positive, 0 otherwise. -/
def adjustedDurationSec (c : MelodicConfig) : ℚ :=
  if c.params.TPQ > 0 ∧ c.params.TEMPO > 0 then
    (adjustedTotalTicks c : ℚ) / c.params.ticksPerSec
  else 0

/-- The loop state of a melodic worker (lines 916-939), together with the
events it has appended so far and the `finished` flag recording that the
duration check has fired. -/
structure MState where
  wasScheduled : Bool
  noteIsOn : Bool
  currentNote : ℤ
  noteStartTick : ℤ
  noteDuration : ℤ
  currentTick : ℤ
  currentPhase : ℤ
  snippets : List Snippet
  lastWallTime : ℚ
  lastCpuTime : ℚ
  events : List TimelineEvent
  finished : Bool
deriving Repr, DecidableEq

/-- The state of a melodic worker before its first loop iteration; the
track-name event of lines 923-926 is already appended. -/
def melodicInit (c : MelodicConfig) (snippets : List Snippet) : MState :=
  { wasScheduled := false
    noteIsOn := false
    currentNote := -1
    noteStartTick := 0
    noteDuration := 0
    currentTick := 0
    currentPhase := -1
    snippets := snippets
    lastWallTime := 0
    lastCpuTime := c.startCpuTime
    events := [TimelineEvent.trackName c.track 0]
    finished := false }

/-- The clamped phase index computed at lines 973-974:
`currentTick / adjustedTicksPerPhase` (0 when the divisor is 0), clamped
to `numPhases - 1`. -/
def melodicNewPhase (c : MelodicConfig) (currentTick : ℤ) : ℤ :=
  let newPhase :=
    if adjustedTicksPerPhase c > 0 then currentTick.tdiv (adjustedTicksPerPhase c) else 0
  if newPhase ≥ c.numPhases then c.numPhases - 1 else newPhase

/-- The phase-transition block of lines 976-1000: on a phase change, end
any sounding note at (at least) the boundary tick, emit the phase marker,
and reset the new phase's snippet cursor. -/
def phaseBlock (c : MelodicConfig) (s : MState) : MState :=
  let newPhase := melodicNewPhase c s.currentTick
  if newPhase ≠ s.currentPhase then
    let phaseEventTick := newPhase * adjustedTicksPerPhase c
    let s1 :=
      if s.noteIsOn then
        { s with
            events := s.events ++
              [TimelineEvent.noteOff c.track (max s.noteStartTick phaseEventTick)
                c.channel s.currentNote]
            noteIsOn := false
            wasScheduled := false }
      else s
    let s2 :=
      { s1 with
          events := s1.events ++ [TimelineEvent.marker c.track phaseEventTick newPhase]
          currentPhase := newPhase }
    if 0 ≤ s2.currentPhase ∧ s2.currentPhase < (s2.snippets.length : ℤ) then
      let idx := (s2.currentPhase % (s2.snippets.length : ℤ)).toNat
      { s2 with snippets := s2.snippets.set idx ((s2.snippets.getD idx ⟨[], 0⟩).reset) }
    else s2
  else s

/-- The scheduling-transition block of lines 1002-1066: on a `false→true`
edge start a note (inside the current phase window), on a `true→false`
edge end the sounding note (clamped to the phase boundary), and with no
edge advance to the next snippet note once the current one's duration has
elapsed, stopping at the phase boundary. -/
def schedBlock (c : MelodicConfig) (isSch : Bool) (s : MState) : MState :=
  if isSch ≠ s.wasScheduled then
    let s' :=
      if isSch then
        let nextPhaseTick := (s.currentPhase + 1) * adjustedTicksPerPhase c
        if ¬s.noteIsOn ∧ 0 ≤ s.currentPhase ∧ s.currentPhase < (s.snippets.length : ℤ) ∧
            (adjustedTicksPerPhase c = 0 ∨ s.currentTick < nextPhaseTick) then
          let idx := (s.currentPhase % (s.snippets.length : ℤ)).toNat
          let r := (s.snippets.getD idx ⟨[], 0⟩).getNextNote
          match r.1 with
          | some note =>
            { s with
                currentNote := note.pitch
                noteDuration := note.duration
                events := s.events ++
                  [TimelineEvent.noteOn c.track s.currentTick c.channel note.pitch note.velocity]
                noteStartTick := s.currentTick
                noteIsOn := true
                snippets := s.snippets.set idx r.2 }
          | none => { s with snippets := s.snippets.set idx r.2 }
        else s
      else
        if s.noteIsOn then
          let nextPhaseTick := (s.currentPhase + 1) * adjustedTicksPerPhase c
          let endTick :=
            if adjustedTicksPerPhase c > 0 ∧ s.currentTick ≥ nextPhaseTick then nextPhaseTick
            else s.currentTick
          { s with
              events := s.events ++ [TimelineEvent.noteOff c.track endTick c.channel s.currentNote]
              noteIsOn := false }
        else s
    { s' with wasScheduled := isSch }
  else if isSch ∧ s.noteIsOn ∧ s.currentTick - s.noteStartTick ≥ s.noteDuration then
    let intendedEndTick := s.noteStartTick + s.noteDuration
    let nextPhaseTick := (s.currentPhase + 1) * adjustedTicksPerPhase c
    let endTick :=
      if adjustedTicksPerPhase c > 0 ∧ intendedEndTick ≥ nextPhaseTick then nextPhaseTick
      else intendedEndTick
    let s1 :=
      { s with events := s.events ++ [TimelineEvent.noteOff c.track endTick c.channel s.currentNote] }
    if adjustedTicksPerPhase c = 0 ∨ endTick < nextPhaseTick then
      if 0 ≤ s1.currentPhase ∧ s1.currentPhase < (s1.snippets.length : ℤ) then
        let idx := (s1.currentPhase % (s1.snippets.length : ℤ)).toNat
        let r := (s1.snippets.getD idx ⟨[], 0⟩).getNextNote
        match r.1 with
        | some note =>
          { s1 with
              currentNote := note.pitch
              noteDuration := note.duration
              events := s1.events ++
                [TimelineEvent.noteOn c.track endTick c.channel note.pitch note.velocity]
              noteStartTick := endTick
              noteIsOn := true
              snippets := s1.snippets.set idx r.2 }
        | none => { s1 with noteIsOn := false, snippets := s1.snippets.set idx r.2 }
      else { s1 with noteIsOn := false }
    else { s1 with noteIsOn := false }
  else s

/-- One iteration of the melodic worker's main loop (lines 942-1081),
consuming the `(wallTime, cpuTime)` sample the iteration reads.  If the
adjusted duration has elapsed, a closing `NoteOff` at
`adjustedTotalTicks` is emitted for a still-sounding note and the loop
terminates (lines 949-957); otherwise the scheduling signal, the current
tick, the phase block and the scheduling block run in source order. -/
def melodicStep (c : MelodicConfig) (s : MState) (sample : ℚ × ℚ) : MState :=
  if s.finished then s
  else if sample.1 ≥ adjustedDurationSec c then
    let s1 :=
      if s.noteIsOn then
        { s with
            events := s.events ++
              [TimelineEvent.noteOff c.track (adjustedTotalTicks c) c.channel s.currentNote] }
      else s
    { s1 with finished := true }
  else
    let wallTimeDelta := sample.1 - s.lastWallTime
    let cpuTimeDelta := sample.2 - s.lastCpuTime
    let isSch := isScheduledOf wallTimeDelta cpuTimeDelta
    let currentTick := truncInt (sample.1 * c.params.ticksPerSec)
    let s1 := { s with currentTick := currentTick }
    let s2 := phaseBlock c s1
    let s3 := schedBlock c isSch s2
    { s3 with lastWallTime := sample.1, lastCpuTime := sample.2 }

/-- A melodic worker run: fold the loop body over a finite list of
`(wallTime, cpuTime)` samples. -/
def melodicRun (c : MelodicConfig) (snippets : List Snippet) (samples : List (ℚ × ℚ)) : MState :=
  samples.foldl (melodicStep c) (melodicInit c snippets)

/-! ### Drum worker (part_003 `drumThreadFunction`, lines 766-883) -/

/-- The configuration of the drum worker: timing parameters, track,
duration, phase count and the per-phase drum patterns. -/
structure DrumConfig where
  params : MidiParams
  track : ℤ
  durationSec : ℤ
  numPhases : ℤ
  patterns : List DrumPattern
deriving Repr, DecidableEq

/-- Line 768-769: raw ticks per phase of the drum worker,
`durationSec * (TPQ * (TEMPO / 60.0)) / numPhases` truncated to `int`,
lifted to 1 when the duration is positive but the quotient vanished. -/
def drumTicksPerPhase (c : DrumConfig) : ℤ :=
  let t :=
    if c.numPhases > 0 then
      truncInt ((c.durationSec : ℚ) * c.params.ticksPerSec / (c.numPhases : ℚ))
    else truncInt ((c.durationSec : ℚ) * c.params.ticksPerSec)
  if c.durationSec > 0 ∧ t ≤ 0 then 1 else t

/-- Line 770: total raw ticks, `durationSec * (TPQ * (TEMPO / 60.0))`
truncated to `int`. -/
def drumTotalTicks (c : DrumConfig) : ℤ :=
  truncInt ((c.durationSec : ℚ) * c.params.ticksPerSec)

/-- Line 774: `ticksPerStep = ticksPerBar / 4` (C++ `int` division). -/
def drumTicksPerStep (c : DrumConfig) : ℤ := (c.params.ticksPerBar).tdiv 4

/-- Line 828: the 16-step grid position,
`(currentTick / ticksPerStep) % 16` when `ticksPerStep > 0`, else 0. -/
def stepPosition (ticksPerStep currentTick : ℤ) : ℤ :=
  if ticksPerStep > 0 then (currentTick.tdiv ticksPerStep).tmod 16 else 0

/-- The clamped drum phase index of lines 810-811. -/
def drumNewPhase (c : DrumConfig) (currentTick : ℤ) : ℤ :=
  let newPhase :=
    if drumTicksPerPhase c > 0 then currentTick.tdiv (drumTicksPerPhase c) else 0
  if newPhase ≥ c.numPhases then c.numPhases - 1 else newPhase

/-- The loop state of the drum worker (lines 776-788). -/
structure DState where
  currentPhase : ℤ
  currentStep : ℤ
  currentTick : ℤ
  events : List TimelineEvent
  finished : Bool
deriving Repr, DecidableEq

/-- The state of the drum worker before its first loop iteration, with the
track-name event of lines 781-784 appended. -/
def drumInit (c : DrumConfig) : DState :=
  { currentPhase := -1
    currentStep := -1
    currentTick := 0
    events := [TimelineEvent.trackName c.track 0]
    finished := false }

/-- The percussion events a single drum voice contributes at one step
(lines 845-862): a `NoteOn` on the quantized `stepTick` and a `NoteOff`
one step minus one tick later (at least one tick), on channel 9. -/
def drumHit (track stepTick ticksPerStep pitch velocity : ℤ) : List TimelineEvent :=
  [TimelineEvent.noteOn track stepTick 9 pitch velocity,
   TimelineEvent.noteOff track (stepTick + max 1 (ticksPerStep - 1)) 9 pitch]

/-- The drum phase-transition block (lines 809-825): on a phase change,
emit the phase marker and the crash-cymbal accent at the boundary tick. -/
def drumMarkerBlock (c : DrumConfig) (s : DState) : DState :=
  let newPhase := drumNewPhase c s.currentTick
  if newPhase ≠ s.currentPhase then
    let phaseEventTick := newPhase * drumTicksPerPhase c
    { s with
        events := s.events ++
          [TimelineEvent.marker c.track phaseEventTick newPhase,
           TimelineEvent.noteOn c.track phaseEventTick 9 CRASH 110,
           TimelineEvent.noteOff c.track (phaseEventTick + max 1 (drumTicksPerStep c)) 9 CRASH]
        currentPhase := newPhase }
  else s

/-- The drum step block (lines 827-863): on a change of the 16-slot grid
position, clamp a negative phase to 0 and emit the active pattern's kick,
snare and hi-hat hits at the quantized step tick. -/
def drumHitBlock (c : DrumConfig) (s : DState) : DState :=
  let stepPos := stepPosition (drumTicksPerStep c) s.currentTick
  if stepPos ≠ s.currentStep then
    let cp : ℤ := if s.currentPhase < 0 then 0 else s.currentPhase
    let s3 := { s with currentStep := stepPos, currentPhase := cp }
    let pattern := c.patterns.getD ((cp % (c.patterns.length : ℤ)).toNat) ⟨[], [], [], []⟩
    let stepTick :=
      if drumTicksPerStep c > 0 then
        (s.currentTick.tdiv (drumTicksPerStep c)) * drumTicksPerStep c
      else s.currentTick
    let vel := pattern.velocities.getD stepPos.toNat 0
    let evKick :=
      if pattern.kick.getD stepPos.toNat false then
        drumHit c.track stepTick (drumTicksPerStep c) KICK vel
      else []
    let evSnare :=
      if pattern.snare.getD stepPos.toNat false then
        drumHit c.track stepTick (drumTicksPerStep c) SNARE vel
      else []
    let evHihat :=
      if pattern.hihat.getD stepPos.toNat false then
        drumHit c.track stepTick (drumTicksPerStep c)
          (if stepPos.tmod 8 = 0 then OPEN_HAT else CLOSED_HAT) vel
      else []
    { s3 with events := s3.events ++ evKick ++ evSnare ++ evHihat }
  else s

/-- One iteration of the drum worker's main loop (lines 796-873).  Only
the wall-time component of the sample is read: the drum loop of part_003
never consults the cpu clock (the main.cpp variant computes the scheduling
signal and then ignores it). -/
def drumStep (c : DrumConfig) (s : DState) (sample : ℚ × ℚ) : DState :=
  if s.finished then s
  else if sample.1 ≥ (c.durationSec : ℚ) then { s with finished := true }
  else
    let currentTick := truncInt (sample.1 * c.params.ticksPerSec)
    drumHitBlock c (drumMarkerBlock c { s with currentTick := currentTick })

/-- A drum worker run: fold the loop body over a finite sample list. -/
def drumRun (c : DrumConfig) (samples : List (ℚ × ℚ)) : DState :=
  samples.foldl (drumStep c) (drumInit c)

/-! ### Note on/off pairing (claim C1) -/

/-- A note action abstracted from a timeline event: a NoteOn or NoteOff of
a given pitch (a melodic worker writes all its note events to its single
fixed track and channel). -/
inductive NoteAct where
  | onAct (pitch : ℤ)
  | offAct (pitch : ℤ)
deriving Repr, DecidableEq

/-- The note action of an event, if any. -/
def noteActOf : TimelineEvent → Option NoteAct
  | .noteOn _ _ _ p _ => some (.onAct p)
  | .noteOff _ _ _ p => some (.offAct p)
  | _ => none

/-- The subsequence of note actions of an event list, in emission order. -/
def noteTrace (evs : List TimelineEvent) : List NoteAct := evs.filterMap noteActOf

/-- Walk a note-action list keeping the pitch of the currently unmatched
NoteOn (if any).  The result is `none` when the list violates alternation:
a NoteOff without a sounding note, a NoteOff of the wrong pitch, or a
second NoteOn before the first was closed. -/
def checkAlt : Option ℤ → List NoteAct → Option (Option ℤ)
  | pending, [] => some pending
  | none, NoteAct.onAct p :: rest => checkAlt (some p) rest
  | none, NoteAct.offAct _ :: _ => none
  | some _, NoteAct.onAct _ :: _ => none
  | some p, NoteAct.offAct q :: rest => if p = q then checkAlt none rest else none

/-- A note-action list is well paired when every NoteOn is followed by
exactly one NoteOff of the same pitch before the next NoteOn, and no
NoteOn is left unmatched. -/
def WellPaired (l : List NoteAct) : Prop := checkAlt none l = some none

/-- The pitch of a melodic worker state's currently unmatched NoteOn. -/
def pendingOf (s : MState) : Option ℤ := if s.noteIsOn then some s.currentNote else none

/-- Pairing invariant of the melodic worker: while running, the emitted
note trace checks out with exactly the state's pending note open; once
finished it is fully paired. -/
def MInv (s : MState) : Prop :=
  if s.finished then WellPaired (noteTrace s.events)
  else checkAlt none (noteTrace s.events) = some (pendingOf s)

theorem checkAlt_append (l l' : List NoteAct) (p : Option ℤ) :
    checkAlt p (l ++ l') = (checkAlt p l).bind fun q => checkAlt q l' := by
  induction l generalizing p with
  | nil => simp [checkAlt]
  | cons a rest ih =>
    cases p with
    | none =>
      cases a with
      | onAct q => simpa [checkAlt] using ih (some q)
      | offAct q => simp [checkAlt]
    | some r =>
      cases a with
      | onAct q => simp [checkAlt]
      | offAct q =>
        by_cases h : r = q
        · simpa [checkAlt, h] using ih none
        · simp [checkAlt, h]

theorem noteTrace_append (l l' : List TimelineEvent) :
    noteTrace (l ++ l') = noteTrace l ++ noteTrace l' := by
  simp [noteTrace]

theorem MState.events_ite (p : Prop) [Decidable p] (a b : MState) :
    MState.events (if p then a else b) = if p then a.events else b.events :=
  apply_ite MState.events p a b

theorem MState.noteIsOn_ite (p : Prop) [Decidable p] (a b : MState) :
    MState.noteIsOn (if p then a else b) = if p then a.noteIsOn else b.noteIsOn :=
  apply_ite MState.noteIsOn p a b

theorem MState.currentNote_ite (p : Prop) [Decidable p] (a b : MState) :
    MState.currentNote (if p then a else b) = if p then a.currentNote else b.currentNote :=
  apply_ite MState.currentNote p a b

theorem MState.currentPhase_ite (p : Prop) [Decidable p] (a b : MState) :
    MState.currentPhase (if p then a else b) = if p then a.currentPhase else b.currentPhase :=
  apply_ite MState.currentPhase p a b

theorem MState.currentTick_ite (p : Prop) [Decidable p] (a b : MState) :
    MState.currentTick (if p then a else b) = if p then a.currentTick else b.currentTick :=
  apply_ite MState.currentTick p a b

theorem MState.wasScheduled_ite (p : Prop) [Decidable p] (a b : MState) :
    MState.wasScheduled (if p then a else b) = if p then a.wasScheduled else b.wasScheduled :=
  apply_ite MState.wasScheduled p a b

theorem MState.finished_ite (p : Prop) [Decidable p] (a b : MState) :
    MState.finished (if p then a else b) = if p then a.finished else b.finished :=
  apply_ite MState.finished p a b

theorem MState.lastWallTime_ite (p : Prop) [Decidable p] (a b : MState) :
    MState.lastWallTime (if p then a else b) = if p then a.lastWallTime else b.lastWallTime :=
  apply_ite MState.lastWallTime p a b

theorem phaseBlock_pending (c : MelodicConfig) (s : MState)
    (h : checkAlt none (noteTrace s.events) = some (pendingOf s)) :
    checkAlt none (noteTrace (phaseBlock c s).events) = some (pendingOf (phaseBlock c s)) := by
  unfold phaseBlock
  by_cases hb : melodicNewPhase c s.currentTick ≠ s.currentPhase
  · by_cases hn : s.noteIsOn
    · simp [pendingOf, hn, noteTrace] at h
      simp [hb, hn, pendingOf, MState.events_ite, MState.noteIsOn_ite, MState.currentNote_ite,
        noteTrace_append, checkAlt_append, h, noteTrace, noteActOf, checkAlt]
    · simp [pendingOf, hn, noteTrace] at h
      simp [hb, hn, pendingOf, MState.events_ite, MState.noteIsOn_ite, MState.currentNote_ite,
        noteTrace_append, checkAlt_append, h, noteTrace, noteActOf, checkAlt]
  · simp only [ne_eq, not_not] at hb
    simp [phaseBlock, hb, h]

theorem schedBlock_pending (c : MelodicConfig) (isSch : Bool) (s : MState)
    (h : checkAlt none (noteTrace s.events) = some (pendingOf s)) :
    checkAlt none (noteTrace (schedBlock c isSch s).events) =
      some (pendingOf (schedBlock c isSch s)) := by
  unfold schedBlock
  cases hws : s.wasScheduled <;> cases isSch
  · -- no edge, signal stays false: the expiry branch does not fire
    simp [hws, pendingOf, h]
  · -- edge false→true: the note-start branch
    by_cases hg : ¬s.noteIsOn ∧ 0 ≤ s.currentPhase ∧ s.currentPhase < (s.snippets.length : ℤ) ∧
        (adjustedTicksPerPhase c = 0 ∨ s.currentTick < (s.currentPhase + 1) * adjustedTicksPerPhase c)
    all_goals simp only [Bool.not_eq_true] at hg
    · have hn : s.noteIsOn = false := by
        rcases hg with ⟨h1, -⟩
        simpa using h1
      simp [pendingOf, hn, noteTrace] at h
      rcases hrn : ((s.snippets.getD ((s.currentPhase % (s.snippets.length : ℤ)).toNat)
          ⟨[], 0⟩).getNextNote).1 with - | note <;>
        simp only [List.getD_eq_getElem?_getD] at hrn <;>
        simp [hws, hg, hrn, pendingOf, hn, noteTrace, noteActOf, checkAlt,
          noteTrace_append, checkAlt_append, h]
    · simp [hws, hg, pendingOf, h]
  · -- edge true→false: the note-stop branch
    by_cases hn : s.noteIsOn
    · simp [pendingOf, hn, noteTrace] at h
      simp [hws, hn, pendingOf, noteTrace, noteActOf, checkAlt, noteTrace_append,
        checkAlt_append, h]
    · simp [hws, hn, pendingOf, h]
  · -- no edge, signal stays true: possibly the duration-expiry branch
    by_cases hx : s.noteIsOn = true ∧ s.currentTick - s.noteStartTick ≥ s.noteDuration
    · have hn : s.noteIsOn = true := hx.1
      simp [pendingOf, hn, noteTrace] at h
      by_cases hcont : adjustedTicksPerPhase c = 0 ∨
          (if adjustedTicksPerPhase c > 0 ∧
              s.noteStartTick + s.noteDuration ≥ (s.currentPhase + 1) * adjustedTicksPerPhase c
            then (s.currentPhase + 1) * adjustedTicksPerPhase c
            else s.noteStartTick + s.noteDuration) < (s.currentPhase + 1) * adjustedTicksPerPhase c
      · by_cases hrange : 0 ≤ s.currentPhase ∧ s.currentPhase < (s.snippets.length : ℤ)
        · rcases hrn : ((s.snippets.getD ((s.currentPhase % (s.snippets.length : ℤ)).toNat)
              ⟨[], 0⟩).getNextNote).1 with - | note <;>
            simp only [List.getD_eq_getElem?_getD] at hrn <;>
            simp [hws, hx, hcont, hrange, hrn, pendingOf, hn, noteTrace, noteActOf,
              checkAlt, noteTrace_append, checkAlt_append, h]
        · simp [hws, hx, hcont, hrange, pendingOf, hn, noteTrace, noteActOf, checkAlt,
            noteTrace_append, checkAlt_append, h]
      · simp [hws, hx, hcont, pendingOf, hn, noteTrace, noteActOf, checkAlt,
          noteTrace_append, checkAlt_append, h]
    · simp [hws, hx, pendingOf, h]

theorem phaseBlock_finished (c : MelodicConfig) (s : MState) :
    (phaseBlock c s).finished = s.finished := by
  simp only [phaseBlock]
  repeat' split
  all_goals rfl

theorem schedBlock_finished (c : MelodicConfig) (isSch : Bool) (s : MState) :
    (schedBlock c isSch s).finished = s.finished := by
  simp only [schedBlock]
  repeat' split
  all_goals rfl

theorem melodicStep_inv (c : MelodicConfig) (s : MState) (sample : ℚ × ℚ)
    (h : MInv s) : MInv (melodicStep c s sample) := by
  by_cases hf : s.finished
  · simpa [melodicStep, hf] using h
  · simp only [MInv, hf, Bool.false_eq_true, if_false] at h
    by_cases hd : sample.1 ≥ adjustedDurationSec c
    · by_cases hn : s.noteIsOn
      · simp only [pendingOf, hn, if_true, noteTrace] at h
        simp [melodicStep, MInv, hf, hd, hn, WellPaired, noteTrace, noteActOf, checkAlt,
          noteTrace_append, checkAlt_append, h]
      · simp only [pendingOf, hn, noteTrace, Bool.false_eq_true, if_false] at h
        simp [melodicStep, MInv, hf, hd, hn, WellPaired, noteTrace, h]
    · have h1 : checkAlt none (noteTrace
          (MState.events { s with currentTick := truncInt (sample.1 * c.params.ticksPerSec) })) =
          some (pendingOf { s with currentTick := truncInt (sample.1 * c.params.ticksPerSec) }) := by
        simpa [pendingOf] using h
      have h2 := phaseBlock_pending c _ h1
      have h3 := schedBlock_pending c
        (isScheduledOf (sample.1 - s.lastWallTime) (sample.2 - s.lastCpuTime)) _ h2
      have hf2 : s.finished = false := by simpa using hf
      have hfin : (schedBlock c
          (isScheduledOf (sample.1 - s.lastWallTime) (sample.2 - s.lastCpuTime))
          (phaseBlock c { s with currentTick := truncInt (sample.1 * c.params.ticksPerSec) })).finished
          = false := by
        rw [schedBlock_finished, phaseBlock_finished]
        exact hf2
      unfold melodicStep
      rw [if_neg (by simp [hf2]), if_neg hd]
      simp only [MInv, hfin, Bool.false_eq_true, if_false]
      simpa [pendingOf] using h3

theorem melodicFold_inv (c : MelodicConfig) (samples : List (ℚ × ℚ)) (s : MState)
    (h : MInv s) : MInv (samples.foldl (melodicStep c) s) := by
  induction samples generalizing s with
  | nil => simpa using h
  | cons a rest ih => exact ih _ (melodicStep_inv c s a h)

theorem melodicRun_inv (c : MelodicConfig) (snips : List Snippet) (samples : List (ℚ × ℚ)) :
    MInv (melodicRun c snips samples) := by
  have h0 : MInv (melodicInit c snips) := by
    simp [MInv, melodicInit, pendingOf, noteTrace, noteActOf, checkAlt]
  exact melodicFold_inv c samples _ h0

/-- C1: on a melodic worker's single (track, channel), every NoteOn in the
emitted event sequence is closed by exactly one NoteOff of the same pitch
before the next NoteOn, including the closing NoteOff emitted when the
duration check fires while a note is still sounding; once the worker has
finished, its timeline contains no unmatched and no overlapping NoteOn. -/
theorem melodic_noteOn_noteOff_paired (c : MelodicConfig) (snips : List Snippet)
    (samples : List (ℚ × ℚ)) (h : (melodicRun c snips samples).finished = true) :
    WellPaired (noteTrace (melodicRun c snips samples).events) := by
  have hi := melodicRun_inv c snips samples
  simpa [MInv, h, WellPaired] using hi

/-- Witness for C1 on a concrete run that starts a note, re-issues it twice
by duration expiry, and is still sounding when the duration check fires. -/
theorem melodic_noteOn_noteOff_paired_witness :
    (melodicRun ⟨⟨480, 120, 4⟩, 1, 1, 16, 2, 0⟩
        [⟨[⟨60, 100, 480⟩], 0⟩, ⟨[⟨60, 100, 480⟩], 0⟩]
        [(1/10, 1/10), (3/5, 3/5), (11/10, 11/10), (16, 16)]).finished = true ∧
    WellPaired (noteTrace (melodicRun ⟨⟨480, 120, 4⟩, 1, 1, 16, 2, 0⟩
        [⟨[⟨60, 100, 480⟩], 0⟩, ⟨[⟨60, 100, 480⟩], 0⟩]
        [(1/10, 1/10), (3/5, 3/5), (11/10, 11/10), (16, 16)]).events) :=
  ⟨by decide, melodic_noteOn_noteOff_paired _ _ _ (by decide)⟩

/-! ### Claim C2: the scheduling sampler's guarded division -/

/-- C2: for successive samples the sampler computes the quotient
`Δcpu / Δwall` when `Δwall > 0` and defines it as 0 when `Δwall ≤ 0`,
reports `scheduled = (quotient > SCHEDULE_THRESHOLD)`, and a sample with
`Δwall = 0` never divides by zero and always reports `scheduled = false`. -/
theorem schedSampler_guarded_division (dw dc : ℚ) :
    (dw > 0 → schedQuotient dw dc = dc / dw) ∧
    (dw ≤ 0 → schedQuotient dw dc = 0) ∧
    isScheduledOf dw dc = decide (schedQuotient dw dc > SCHEDULE_THRESHOLD) ∧
    (dw = 0 → isScheduledOf dw dc = false) := by
  refine ⟨fun h => by simp [schedQuotient, h], fun h => by simp [schedQuotient, not_lt.mpr h],
    rfl, fun h => ?_⟩
  subst h
  simp [isScheduledOf, schedQuotient, SCHEDULE_THRESHOLD]

/-- Witness for C2 at the degenerate sample `Δwall = 0`, `Δcpu = 5`. -/
theorem schedSampler_guarded_division_witness :
    schedQuotient 0 5 = 0 ∧ isScheduledOf 0 5 = false :=
  ⟨(schedSampler_guarded_division 0 5).2.1 le_rfl,
   (schedSampler_guarded_division 0 5).2.2.2 rfl⟩

/-! ### Claim C3: bar-aligned phase length -/

theorem roundHalfAway_nonneg (q : ℚ) (h : 0 ≤ q) : 0 ≤ roundHalfAway q := by
  unfold roundHalfAway
  rw [if_pos h]
  exact Int.le_floor.mpr (by push_cast; linarith)

theorem ticksPerBar_pos (p : MidiParams) (h1 : 1 ≤ p.TPQ) (h2 : 1 ≤ p.BEATS_PER_BAR) :
    0 < p.ticksPerBar :=
  mul_pos (by omega) (by omega)

theorem ticksPerSec_pos (p : MidiParams) (h1 : 1 ≤ p.TPQ) (h2 : 1 ≤ p.TEMPO) :
    0 < p.ticksPerSec := by
  unfold MidiParams.ticksPerSec
  have ha : (0:ℚ) < p.TPQ := by exact_mod_cast h1
  have hb : (0:ℚ) < p.TEMPO := by exact_mod_cast h2
  positivity

theorem initialTicksPerPhase_pos (c : MelodicConfig) (hdur : 1 ≤ c.durationSec)
    (hph : 1 ≤ c.numPhases) (htpq : 1 ≤ c.params.TPQ) (htempo : 1 ≤ c.params.TEMPO) :
    0 < initialTicksPerPhase c := by
  have h1 : (0:ℚ) < (c.durationSec : ℚ) := by exact_mod_cast hdur
  have h2 := ticksPerSec_pos c.params htpq htempo
  have h3 : 0 < initialTotalTicks c := mul_pos h1 h2
  have h4 : (0:ℚ) < (c.numPhases : ℚ) := by exact_mod_cast hph
  unfold initialTicksPerPhase
  rw [if_pos (by exact_mod_cast hph)]
  exact div_pos h3 h4

/-- The bar-aligned phase length written as the spec phrases it: the
nearest whole multiple of one bar, floored at one full bar. -/
theorem adjustedTicksPerPhase_eq_max (c : MelodicConfig)
    (hb : 0 < c.params.ticksPerBar) (hraw : 0 < initialTicksPerPhase c) :
    adjustedTicksPerPhase c =
      max c.params.ticksPerBar
        (roundHalfAway (initialTicksPerPhase c / (c.params.ticksPerBar : ℚ)) *
          c.params.ticksPerBar) := by
  have hbq : (0:ℚ) < (c.params.ticksPerBar : ℚ) := by exact_mod_cast hb
  have hk : 0 ≤ roundHalfAway (initialTicksPerPhase c / (c.params.ticksPerBar : ℚ)) :=
    roundHalfAway_nonneg _ (le_of_lt (div_pos hraw hbq))
  have hcond : c.params.ticksPerBar > 0 ∧ initialTicksPerPhase c > 0 := ⟨hb, hraw⟩
  unfold adjustedTicksPerPhase
  simp only [hcond, and_self, if_true, gt_iff_lt, hb, hraw]
  by_cases hk0 : roundHalfAway (initialTicksPerPhase c / (c.params.ticksPerBar : ℚ)) = 0
  · rw [hk0, zero_mul]
    have hnl : ¬ c.params.ticksPerBar < 0 := not_lt.mpr hb.le
    simp [hnl, max_eq_left hb.le]
  · have hk1 : 1 ≤ roundHalfAway (initialTicksPerPhase c / (c.params.ticksPerBar : ℚ)) := by
      omega
    have hle : c.params.ticksPerBar ≤
        roundHalfAway (initialTicksPerPhase c / (c.params.ticksPerBar : ℚ)) *
          c.params.ticksPerBar := by
      nlinarith
    have hne : roundHalfAway (initialTicksPerPhase c / (c.params.ticksPerBar : ℚ)) *
        c.params.ticksPerBar ≠ 0 := by
      intro h
      rcases mul_eq_zero.mp h with h | h <;> omega
    rw [if_neg hne, if_neg (by omega : ¬ roundHalfAway (initialTicksPerPhase c /
      (c.params.ticksPerBar : ℚ)) * c.params.ticksPerBar < 0)]
    exact (max_eq_right hle).symm

theorem adjustedTicksPerPhase_ge_bar (c : MelodicConfig)
    (hb : 0 < c.params.ticksPerBar) (hraw : 0 < initialTicksPerPhase c) :
    c.params.ticksPerBar ≤ adjustedTicksPerPhase c := by
  rw [adjustedTicksPerPhase_eq_max c hb hraw]
  exact le_max_left _ _

theorem ticksPerBar_dvd_adjusted (c : MelodicConfig)
    (hb : 0 < c.params.ticksPerBar) (hraw : 0 < initialTicksPerPhase c) :
    c.params.ticksPerBar ∣ adjustedTicksPerPhase c := by
  rw [adjustedTicksPerPhase_eq_max c hb hraw]
  rcases max_choice c.params.ticksPerBar
      (roundHalfAway (initialTicksPerPhase c / (c.params.ticksPerBar : ℚ)) *
        c.params.ticksPerBar) with h | h
  · rw [h]
  · rw [h]
    exact dvd_mul_left _ _

/-- C3: for positive nominal duration, at least one phase, and positive
bar length, the melodic worker's bar-aligned phase length is the raw
ticks-per-phase rounded to the nearest whole multiple of one bar with a
floor of one full bar; consequently `adjustedTicksPerPhase ≥ barTicks` and
`adjustedTotalTicks = adjustedTicksPerPhase * numPhases` is an integer
multiple of the bar length. -/
theorem barAligned_phase_length (c : MelodicConfig)
    (hdur : 1 ≤ c.durationSec) (hph : 1 ≤ c.numPhases)
    (htpq : 1 ≤ c.params.TPQ) (htempo : 1 ≤ c.params.TEMPO)
    (hbeats : 1 ≤ c.params.BEATS_PER_BAR) :
    adjustedTicksPerPhase c =
      max c.params.ticksPerBar
        (roundHalfAway (initialTicksPerPhase c / (c.params.ticksPerBar : ℚ)) *
          c.params.ticksPerBar) ∧
    c.params.ticksPerBar ≤ adjustedTicksPerPhase c ∧
    c.params.ticksPerBar ∣ adjustedTicksPerPhase c ∧
    adjustedTotalTicks c = adjustedTicksPerPhase c * c.numPhases ∧
    c.params.ticksPerBar ∣ adjustedTotalTicks c := by
  have hb := ticksPerBar_pos c.params htpq hbeats
  have hraw := initialTicksPerPhase_pos c hdur hph htpq htempo
  refine ⟨adjustedTicksPerPhase_eq_max c hb hraw, adjustedTicksPerPhase_ge_bar c hb hraw,
    ticksPerBar_dvd_adjusted c hb hraw, rfl, ?_⟩
  exact Dvd.dvd.mul_right (ticksPerBar_dvd_adjusted c hb hraw) _

/-- Witness for C3 at `durationSec = 16`, `numPhases = 2`, `TPQ = 480`,
`TEMPO = 120`, 4 beats per bar. -/
theorem barAligned_phase_length_witness :
    adjustedTicksPerPhase ⟨⟨480, 120, 4⟩, 1, 1, 16, 2, 0⟩ = 7680 ∧
    (⟨480, 120, 4⟩ : MidiParams).ticksPerBar ≤
      adjustedTicksPerPhase ⟨⟨480, 120, 4⟩, 1, 1, 16, 2, 0⟩ ∧
    (⟨480, 120, 4⟩ : MidiParams).ticksPerBar ∣
      adjustedTotalTicks ⟨⟨480, 120, 4⟩, 1, 1, 16, 2, 0⟩ := by
  have h := barAligned_phase_length ⟨⟨480, 120, 4⟩, 1, 1, 16, 2, 0⟩
    (by decide) (by decide) (by decide) (by decide) (by decide)
  exact ⟨by decide, h.2.1, h.2.2.2.2⟩

/-! ### Claims C7, C8, C10: the snippet cursor -/

/-- An external operation on a snippet: the worker either resets it at a
phase change or pulls the next note. -/
inductive SnippetOp where
  | resetOp
  | nextOp
deriving Repr, DecidableEq

/-- Apply one snippet operation, keeping the mutated snippet. -/
def applySnippetOp (s : Snippet) : SnippetOp → Snippet
  | .resetOp => s.reset
  | .nextOp => (s.getNextNote).2

/-- Iterate `getNextNote`: the first component is the note returned by the
i-th call (0-based), the second the snippet state after it. -/
def getNextNoteIter (s : Snippet) : ℕ → Option Note × Snippet
  | 0 => s.getNextNote
  | i + 1 => getNextNoteIter (s.getNextNote).2 i

theorem applySnippetOp_notes (s : Snippet) (op : SnippetOp) :
    (applySnippetOp s op).notes = s.notes := by
  cases op with
  | resetOp => rfl
  | nextOp =>
    simp only [applySnippetOp, Snippet.getNextNote]
    split <;> rfl

theorem applySnippetOp_bounds (s : Snippet) (op : SnippetOp) (hne : s.notes ≠ [])
    (h0 : 0 ≤ s.currentNoteIndex) (h1 : s.currentNoteIndex < (s.notes.length : ℤ)) :
    0 ≤ (applySnippetOp s op).currentNoteIndex ∧
      (applySnippetOp s op).currentNoteIndex < (s.notes.length : ℤ) := by
  have hlen : (0:ℤ) < (s.notes.length : ℤ) := by
    have := List.length_pos.mpr hne
    exact_mod_cast this
  cases op with
  | resetOp => exact ⟨le_refl 0, hlen⟩
  | nextOp =>
    simp only [applySnippetOp, Snippet.getNextNote, hne, if_false]
    exact ⟨Int.emod_nonneg _ (by omega), Int.emod_lt_of_pos _ hlen⟩

theorem snippetFold_bounds (ops : List SnippetOp) :
    ∀ (s : Snippet), s.notes ≠ [] →
      0 ≤ s.currentNoteIndex → s.currentNoteIndex < (s.notes.length : ℤ) →
      (ops.foldl applySnippetOp s).notes = s.notes ∧
      0 ≤ (ops.foldl applySnippetOp s).currentNoteIndex ∧
      (ops.foldl applySnippetOp s).currentNoteIndex < (s.notes.length : ℤ) := by
  induction ops with
  | nil => exact fun s _ h0 h1 => ⟨rfl, h0, h1⟩
  | cons op rest ih =>
    intro s hne h0 h1
    have hn := applySnippetOp_notes s op
    have hb := applySnippetOp_bounds s op hne h0 h1
    have := ih (applySnippetOp s op) (by rw [hn]; exact hne) hb.1 (by rw [hn]; exact hb.2)
    refine ⟨by rw [List.foldl_cons, this.1, hn], this.2.1, ?_⟩
    have := this.2.2
    rw [hn] at this
    exact this

theorem getNextNote_isSome (s : Snippet) (hne : s.notes ≠ [])
    (h0 : 0 ≤ s.currentNoteIndex) (h1 : s.currentNoteIndex < (s.notes.length : ℤ)) :
    (s.getNextNote).1.isSome := by
  simp only [Snippet.getNextNote, hne, if_false]
  have : s.currentNoteIndex.toNat < s.notes.length := by omega
  simp [List.getElem?_eq_getElem this]

/-- C10: starting from a fresh snippet over a non-empty note list, any
sequence of `reset` and `getNextNote` calls leaves the cursor inside
`[0, notes.length)` and keeps every index access of `getNextNote` in
bounds; a freshly constructed or reset snippet has cursor 0. -/
theorem snippet_cursor_in_bounds (notes : List Note) (hne : notes ≠ [])
    (ops : List SnippetOp) (s : Snippet) :
    ({ notes := notes } : Snippet).currentNoteIndex = 0 ∧
    s.reset.currentNoteIndex = 0 ∧
    (ops.foldl applySnippetOp ⟨notes, 0⟩).notes = notes ∧
    0 ≤ (ops.foldl applySnippetOp ⟨notes, 0⟩).currentNoteIndex ∧
    (ops.foldl applySnippetOp ⟨notes, 0⟩).currentNoteIndex < (notes.length : ℤ) ∧
    ((ops.foldl applySnippetOp ⟨notes, 0⟩).getNextNote).1.isSome := by
  have hlen : (0:ℤ) < (notes.length : ℤ) := by
    have := List.length_pos.mpr hne
    exact_mod_cast this
  have h := snippetFold_bounds ops ⟨notes, 0⟩ hne le_rfl hlen
  refine ⟨rfl, rfl, h.1, h.2.1, h.2.2, ?_⟩
  exact getNextNote_isSome _ (by rw [h.1]; exact hne) h.2.1 (by rw [h.1]; exact h.2.2)

/-- Witness for C10 on a two-note snippet and a mixed operation list. -/
theorem snippet_cursor_in_bounds_witness :
    (([SnippetOp.nextOp, SnippetOp.nextOp, SnippetOp.resetOp,
        SnippetOp.nextOp].foldl applySnippetOp
        ⟨[⟨60, 100, 480⟩, ⟨64, 90, 240⟩], 0⟩).currentNoteIndex <
      ((2 : ℕ) : ℤ)) ∧
    (([SnippetOp.nextOp, SnippetOp.nextOp, SnippetOp.resetOp,
        SnippetOp.nextOp].foldl applySnippetOp
        ⟨[⟨60, 100, 480⟩, ⟨64, 90, 240⟩], 0⟩).getNextNote).1.isSome := by
  have h := snippet_cursor_in_bounds [⟨60, 100, 480⟩, ⟨64, 90, 240⟩] (by decide)
    [SnippetOp.nextOp, SnippetOp.nextOp, SnippetOp.resetOp, SnippetOp.nextOp] ⟨[], 5⟩
  exact ⟨h.2.2.2.2.1, h.2.2.2.2.2⟩

theorem getNextNoteIter_cyclic (notes : List Note) (hne : notes ≠ []) :
    ∀ (i c : ℕ), c < notes.length →
      (getNextNoteIter ⟨notes, (c : ℤ)⟩ i).1 = notes[(c + i) % notes.length]? ∧
      (getNextNoteIter ⟨notes, (c : ℤ)⟩ i).2 =
        ⟨notes, (((c + i + 1) % notes.length : ℕ) : ℤ)⟩ := by
  intro i
  induction i with
  | zero =>
    intro c hc
    have hmod : ((c : ℤ) + 1) % (notes.length : ℤ) = (((c + 1) % notes.length : ℕ) : ℤ) := by
      push_cast
      rfl
    constructor
    · simp [getNextNoteIter, Snippet.getNextNote, hne, Nat.mod_eq_of_lt hc]
    · simp only [getNextNoteIter, Snippet.getNextNote, hne, if_false]
      rw [Snippet.mk.injEq]
      exact ⟨rfl, hmod⟩
  | succ i ih =>
    intro c hc
    have hlen : 0 < notes.length := List.length_pos.mpr hne
    have hc2 : (c + 1) % notes.length < notes.length := Nat.mod_lt _ hlen
    have hstep : (Snippet.getNextNote ⟨notes, (c : ℤ)⟩).2 =
        ⟨notes, (((c + 1) % notes.length : ℕ) : ℤ)⟩ := by
      simp only [Snippet.getNextNote, hne, if_false]
      rw [Snippet.mk.injEq]
      refine ⟨rfl, ?_⟩
      push_cast
      rfl
    have h0 := ih ((c + 1) % notes.length) hc2
    constructor
    · show (getNextNoteIter (Snippet.getNextNote ⟨notes, (c : ℤ)⟩).2 i).1 = _
      rw [hstep, h0.1]
      congr 1
      rw [Nat.mod_add_mod]
      congr 1
      omega
    · show (getNextNoteIter (Snippet.getNextNote ⟨notes, (c : ℤ)⟩).2 i).2 = _
      rw [hstep, h0.2]
      rw [Snippet.mk.injEq]
      refine ⟨rfl, ?_⟩
      congr 1
      conv_lhs => rw [Nat.add_assoc, Nat.mod_add_mod]
      congr 1
      omega

/-- C7: `getNextNote` is cyclic: starting from cursor 0 on a non-empty
snippet of `k` notes, the i-th call returns note `i mod k`, so the notes
come back in order and the cursor wraps to 0 after the last note; for a
one-note snippet every call returns that same note, and a concrete run
shows the duration-expiry transition re-issuing the single note until the
duration check ends the worker. -/
theorem snippet_cyclic_wrap (notes : List Note) (hne : notes ≠ []) (i : ℕ) (n : Note) :
    (getNextNoteIter ⟨notes, 0⟩ i).1 = notes[i % notes.length]? ∧
    (getNextNoteIter ⟨[n], 0⟩ i).1 = some n ∧
    (melodicRun ⟨⟨480, 120, 4⟩, 2, 2, 16, 2, 0⟩
        [⟨[⟨62, 100, 480⟩], 0⟩, ⟨[⟨62, 100, 480⟩], 0⟩]
        [(1/10, 1/10), (3/5, 3/5), (11/10, 11/10), (16, 16)]).events =
      [TimelineEvent.trackName 2 0,
       TimelineEvent.marker 2 0 0,
       TimelineEvent.noteOn 2 96 2 62 100,
       TimelineEvent.noteOff 2 576 2 62,
       TimelineEvent.noteOn 2 576 2 62 100,
       TimelineEvent.noteOff 2 1056 2 62,
       TimelineEvent.noteOn 2 1056 2 62 100,
       TimelineEvent.noteOff 2 15360 2 62] := by
  have hlen : 0 < notes.length := List.length_pos.mpr hne
  have h1 := (getNextNoteIter_cyclic notes hne i 0 hlen).1
  have h2 := (getNextNoteIter_cyclic [n] (by simp) i 0 (by simp)).1
  refine ⟨by simpa using h1, by simpa [Nat.mod_one] using h2, by decide⟩

/-- Witness for C7 on a two-note snippet, call index 5, and a one-note
snippet. -/
theorem snippet_cyclic_wrap_witness :
    (getNextNoteIter ⟨[⟨60, 100, 480⟩, ⟨64, 90, 240⟩], 0⟩ 5).1 =
      [(⟨60, 100, 480⟩ : Note), ⟨64, 90, 240⟩][5 % 2]? ∧
    (getNextNoteIter ⟨[⟨62, 100, 480⟩], 0⟩ 5).1 = some ⟨62, 100, 480⟩ := by
  have h := snippet_cyclic_wrap [⟨60, 100, 480⟩, ⟨64, 90, 240⟩] (by decide) 5 ⟨62, 100, 480⟩
  exact ⟨h.1, h.2.1⟩

/-- The invariant for claim C8: all snippets empty, the player Silent,
and no note event ever emitted. -/
def EmptyInv (s : MState) : Prop :=
  (∀ sn ∈ s.snippets, sn.notes = []) ∧ s.noteIsOn = false ∧ noteTrace s.events = []

theorem getD_notes_empty (l : List Snippet) (hall : ∀ sn ∈ l, sn.notes = []) (idx : ℕ) :
    (l.getD idx ⟨[], 0⟩).notes = [] := by
  rcases h : l[idx]? with - | x
  · simp [List.getD, h]
  · simp [List.getD, h, hall x (List.getElem?_mem h)]

theorem all_empty_set (l : List Snippet) (hall : ∀ sn ∈ l, sn.notes = [])
    (idx : ℕ) (x : Snippet) (hx : x.notes = []) :
    ∀ sn ∈ l.set idx x, sn.notes = [] := fun sn hsn =>
  (List.mem_or_eq_of_mem_set hsn).elim (hall sn) (fun h => h ▸ hx)

theorem getNextNote_of_empty (s : Snippet) (hs : s.notes = []) :
    s.getNextNote = (none, s) := by
  simp [Snippet.getNextNote, hs]

theorem phaseBlock_empty (c : MelodicConfig) (s : MState) (h : EmptyInv s) :
    EmptyInv (phaseBlock c s) := by
  obtain ⟨hall, hn, ht⟩ := h
  simp only [phaseBlock, hn, Bool.false_eq_true, if_false]
  split
  · split
    · refine ⟨?_, by simp [hn], ?_⟩
      · refine all_empty_set _ hall _ _ ?_
        have := getD_notes_empty s.snippets hall
          ((melodicNewPhase c s.currentTick % (s.snippets.length : ℤ)).toNat)
        simpa [List.getD_eq_getElem?_getD, Snippet.reset] using this
      · rw [noteTrace_append, ht]
        simp [noteTrace, noteActOf]
    · refine ⟨hall, by simp [hn], ?_⟩
      rw [noteTrace_append, ht]
      simp [noteTrace, noteActOf]
  · exact ⟨hall, hn, ht⟩

theorem schedBlock_empty (c : MelodicConfig) (isSch : Bool) (s : MState) (h : EmptyInv s) :
    EmptyInv (schedBlock c isSch s) := by
  obtain ⟨hall, hn, ht⟩ := h
  have hget : ∀ idx : ℕ, ((s.snippets[idx]?).getD ⟨[], 0⟩).getNextNote =
      (none, (s.snippets[idx]?).getD ⟨[], 0⟩) := fun idx => by
    have := getNextNote_of_empty _ (getD_notes_empty s.snippets hall idx)
    simpa [List.getD_eq_getElem?_getD] using this
  have hgetnotes : ∀ idx : ℕ, ((s.snippets[idx]?).getD (⟨[], 0⟩ : Snippet)).notes = [] :=
    fun idx => by
    have := getD_notes_empty s.snippets hall idx
    simpa [List.getD_eq_getElem?_getD] using this
  simp only [schedBlock, hn, Bool.false_eq_true, false_and, and_false, if_false,
    List.getD_eq_getElem?_getD]
  split
  · split
    · split
      · rw [hget]
        refine ⟨?_, by simp [hn], by simpa using ht⟩
        exact fun sn hsn => (List.mem_or_eq_of_mem_set hsn).elim (hall sn)
          (fun hh => hh ▸ hgetnotes _)
      · exact ⟨hall, by simp [hn], by simpa using ht⟩
    · exact ⟨hall, by simp [hn], by simpa using ht⟩
  · exact ⟨hall, hn, ht⟩

theorem melodicStep_empty (c : MelodicConfig) (s : MState) (sample : ℚ × ℚ)
    (h : EmptyInv s) : EmptyInv (melodicStep c s sample) := by
  obtain ⟨hall, hn, ht⟩ := h
  unfold melodicStep
  by_cases hf : s.finished
  · rw [if_pos hf]
    exact ⟨hall, hn, ht⟩
  · rw [if_neg hf]
    by_cases hd : sample.1 ≥ adjustedDurationSec c
    · rw [if_pos hd, if_neg (by simp [hn])]
      exact ⟨hall, hn, ht⟩
    · rw [if_neg hd]
      have h1 : EmptyInv { s with currentTick := truncInt (sample.1 * c.params.ticksPerSec) } :=
        ⟨hall, hn, ht⟩
      have h2 := phaseBlock_empty c _ h1
      have h3 := schedBlock_empty c
        (isScheduledOf (sample.1 - s.lastWallTime) (sample.2 - s.lastCpuTime)) _ h2
      exact ⟨h3.1, h3.2.1, h3.2.2⟩

theorem melodicFold_empty (c : MelodicConfig) (samples : List (ℚ × ℚ)) :
    ∀ s : MState, EmptyInv s → EmptyInv (samples.foldl (melodicStep c) s) := by
  induction samples with
  | nil => exact fun s h => h
  | cons a rest ih => exact fun s h => ih _ (melodicStep_empty c s a h)

/-- C8: a snippet with zero notes yields `getNextNote = none`, and a
melodic worker whose snippets are all empty stays Silent for the whole
run: `noteIsOn` is never set and no NoteOn or NoteOff is ever emitted
(the pull simply returns `none` instead of crashing). -/
theorem empty_snippet_silent (s : Snippet) (hs : s.notes = [])
    (c : MelodicConfig) (snips : List Snippet) (samples : List (ℚ × ℚ))
    (hall : ∀ sn ∈ snips, sn.notes = []) :
    s.getNextNote = (none, s) ∧
    (melodicRun c snips samples).noteIsOn = false ∧
    noteTrace (melodicRun c snips samples).events = [] := by
  have h0 : EmptyInv (melodicInit c snips) := by
    refine ⟨hall, rfl, ?_⟩
    simp [melodicInit, noteTrace, noteActOf]
  have hrun : EmptyInv (melodicRun c snips samples) := melodicFold_empty c samples _ h0
  exact ⟨getNextNote_of_empty s hs, hrun.2.1, hrun.2.2⟩

/-- Witness for C8: an empty snippet with a stale cursor, and a run whose
only phase snippet is empty while the worker gets scheduled. -/
theorem empty_snippet_silent_witness :
    (⟨[], 3⟩ : Snippet).getNextNote = (none, (⟨[], 3⟩ : Snippet)) ∧
    (melodicRun ⟨⟨480, 120, 4⟩, 3, 3, 16, 2, 0⟩ [⟨[], 0⟩]
        [(1/10, 1/10), (16, 16)]).noteIsOn = false ∧
    noteTrace (melodicRun ⟨⟨480, 120, 4⟩, 3, 3, 16, 2, 0⟩ [⟨[], 0⟩]
        [(1/10, 1/10), (16, 16)]).events = [] := by
  have h := empty_snippet_silent ⟨[], 3⟩ rfl ⟨⟨480, 120, 4⟩, 3, 3, 16, 2, 0⟩ [⟨[], 0⟩]
    [(1/10, 1/10), (16, 16)] (by decide)
  exact ⟨h.1, h.2.1, h.2.2⟩

/-! ### Claim C6: the 16 s / 2-phase / TPQ 480 / 120 BPM scenario -/

/-- C6: with duration 16 s, 2 phases, TPQ 480 and tempo 120, the rhythm
worker's raw total is 15360 ticks and its ticks-per-phase 7680, and a run
that crosses the phase boundary emits the second phase's Marker at tick
7680. -/
theorem drum_scenario_16s_2phases :
    drumTotalTicks ⟨⟨480, 120, 4⟩, 0, 16, 2, [⟨[], [], [], []⟩, ⟨[], [], [], []⟩]⟩ = 15360 ∧
    drumTicksPerPhase ⟨⟨480, 120, 4⟩, 0, 16, 2, [⟨[], [], [], []⟩, ⟨[], [], [], []⟩]⟩ = 7680 ∧
    (drumRun ⟨⟨480, 120, 4⟩, 0, 16, 2, [⟨[], [], [], []⟩, ⟨[], [], [], []⟩]⟩
        [(0, 0), (161/20, 0)]).events =
      [TimelineEvent.trackName 0 0,
       TimelineEvent.marker 0 0 0,
       TimelineEvent.noteOn 0 0 9 CRASH 110,
       TimelineEvent.noteOff 0 480 9 CRASH,
       TimelineEvent.marker 0 7680 1,
       TimelineEvent.noteOn 0 7680 9 CRASH 110,
       TimelineEvent.noteOff 0 8160 9 CRASH] := by
  refine ⟨by decide, by decide, by decide⟩

/-! ### Claim C4: the rhythm track and the scheduling signal -/

/-- A drum pattern that hits the kick on step 1, used to exhibit that a
sparsely sampling run skips a step that a finer-sampling run plays. -/
def kickOnStepOne : DrumPattern :=
  ⟨[false, true, false, false, false, false, false, false,
    false, false, false, false, false, false, false, false],
   [], [], List.replicate 16 100⟩

/-- C4, counterexample to the claim as frozen: two runs of the rhythm
worker with the same duration, phase count and content tables do NOT
always produce an identical rhythm track — a run whose loop is scheduled
too sparsely to observe a step emits none of that step's hits.  Both runs
below share the configuration; the first samples the grid at step 1, the
second skips straight past it. -/
theorem drum_identical_track_counterexample :
    (drumRun ⟨⟨480, 120, 4⟩, 0, 16, 2, [kickOnStepOne, kickOnStepOne]⟩
        [(0, 0), (1/2, 0), (3/2, 0)]).events ≠
    (drumRun ⟨⟨480, 120, 4⟩, 0, 16, 2, [kickOnStepOne, kickOnStepOne]⟩
        [(0, 0), (3/2, 0)]).events := by
  decide

theorem drumStep_cpu_irrelevant (c : DrumConfig) (s : DState) (w x y : ℚ) :
    drumStep c s (w, x) = drumStep c s (w, y) := rfl

theorem drumFold_wall_only (c : DrumConfig) :
    ∀ (l l2 : List (ℚ × ℚ)) (s : DState), l.map Prod.fst = l2.map Prod.fst →
      l.foldl (drumStep c) s = l2.foldl (drumStep c) s := by
  intro l
  induction l with
  | nil =>
    intro l2 s h
    cases l2 with
    | nil => rfl
    | cons b t => simp at h
  | cons a rest ih =>
    intro l2 s h
    cases l2 with
    | nil => simp at h
    | cons b t =>
      simp only [List.map_cons, List.cons.injEq] at h
      obtain ⟨h1, h2⟩ := h
      rcases a with ⟨wa, xa⟩
      rcases b with ⟨wb, xb⟩
      simp only at h1
      subst h1
      simp only [List.foldl_cons, drumStep_cpu_irrelevant c s wa xa xb]
      exact ih t _ h2

/-- C4, amended: the drum worker's step position is the pure function
`(tick / stepTicks) mod 16` of the tick, and the rhythm track is a
function of the wall-clock samples alone — the cpu-time component (the
scheduling signal's only input) never influences any emitted event, so
two runs with the same configuration and the same wall-clock sample
sequence produce an identical rhythm track. -/
theorem drum_schedule_noninterference (ticksPerStep currentTick : ℤ)
    (hpos : 0 < ticksPerStep) (c : DrumConfig) (samples samples2 : List (ℚ × ℚ))
    (hw : samples.map Prod.fst = samples2.map Prod.fst) :
    stepPosition ticksPerStep currentTick = (currentTick.tdiv ticksPerStep).tmod 16 ∧
    drumRun c samples = drumRun c samples2 := by
  constructor
  · simp [stepPosition, hpos]
  · exact drumFold_wall_only c samples samples2 _ hw

/-- Witness for C4 (amended): step position of tick 1000 on a 480-tick
grid, and two one-sample runs differing only in cpu time. -/
theorem drum_schedule_noninterference_witness :
    stepPosition 480 1000 = (Int.tdiv 1000 480).tmod 16 ∧
    drumRun ⟨⟨480, 120, 4⟩, 0, 16, 2, [kickOnStepOne, kickOnStepOne]⟩ [(1/10, 0)] =
      drumRun ⟨⟨480, 120, 4⟩, 0, 16, 2, [kickOnStepOne, kickOnStepOne]⟩ [(1/10, 7)] :=
  drum_schedule_noninterference 480 1000 (by decide)
    ⟨⟨480, 120, 4⟩, 0, 16, 2, [kickOnStepOne, kickOnStepOne]⟩
    [(1/10, 0)] [(1/10, 7)] (by decide)

/-! ### Claim C9: the Timeline Sink and its finalize step -/

/-- Modelled from the spec: the `finalize()` step (`midifile.sortTracks()`
at main.cpp line 711) lives in the external midifile library, not in this
repository; per the spec it stable-sorts all appended events by tick,
ties broken by insertion order.  Stable merge sort on the tick key. -/
def finalizeTimeline (tl : List TimelineEvent) : List TimelineEvent :=
  tl.mergeSort (fun a b => decide (a.tick ≤ b.tick))

/-- A timeline is an interleaving of the per-worker event sequences: each
append lands as one whole event (atomic relative to other appends), events
of one worker stay in program order, and no ordering holds across workers.
`Interleaving ts tl` says `tl` arose by repeatedly taking the next event
of some worker `i`. -/
inductive Interleaving : List (List TimelineEvent) → List TimelineEvent → Prop where
  | nil : ∀ ts, (∀ t ∈ ts, t = []) → Interleaving ts []
  | cons : ∀ (ts : List (List TimelineEvent)) (i : ℕ) (e : TimelineEvent)
      (t : List TimelineEvent) (tl : List TimelineEvent),
      ts[i]? = some (e :: t) → Interleaving (ts.set i t) tl → Interleaving ts (e :: tl)

theorem join_set_perm (ts : List (List TimelineEvent)) :
    ∀ (i : ℕ) (e : TimelineEvent) (t : List TimelineEvent),
      ts[i]? = some (e :: t) →
      List.Perm (e :: (ts.set i t).flatten) ts.flatten := by
  induction ts with
  | nil => intro i e t h; simp at h
  | cons hd rest ih =>
    intro i e t h
    cases i with
    | zero =>
      simp only [List.getElem?_cons_zero, Option.some.injEq] at h
      subst h
      simp
    | succ n =>
      simp only [List.getElem?_cons_succ] at h
      have h1 := ih n e t h
      show List.Perm (e :: (hd :: rest.set n t).flatten) (hd :: rest).flatten
      simp only [List.flatten_cons, List.set_cons_succ]
      exact (List.perm_middle.symm).trans (h1.append_left hd)

theorem interleaving_perm_flatten (ts : List (List TimelineEvent)) (tl : List TimelineEvent)
    (h : Interleaving ts tl) : List.Perm tl ts.flatten := by
  induction h with
  | nil ts hall =>
    rw [List.flatten_eq_nil_iff.mpr hall]
  | cons ts i e t tl hget hint ih =>
    exact (List.Perm.cons e ih).trans (join_set_perm ts i e t hget)

theorem tickLE_trans (a b c : TimelineEvent) :
    decide (a.tick ≤ b.tick) → decide (b.tick ≤ c.tick) → decide (a.tick ≤ c.tick) := by
  intro h1 h2
  simp only [decide_eq_true_iff] at h1 h2 ⊢
  omega

theorem tickLE_total (a b : TimelineEvent) :
    decide (a.tick ≤ b.tick) || decide (b.tick ≤ a.tick) := by
  simpa [Bool.or_eq_true, decide_eq_true_iff] using le_total a.tick b.tick

theorem finalize_filter_tick (tl : List TimelineEvent) (t : ℤ) :
    (finalizeTimeline tl).filter (fun e => decide (e.tick = t)) =
      tl.filter (fun e => decide (e.tick = t)) := by
  set p : TimelineEvent → Bool := fun e => decide (e.tick = t) with hp
  have hmemt : ∀ a ∈ tl.filter p, a.tick = t := by
    intro a ha
    have := (List.mem_filter.mp ha).2
    simpa [hp] using this
  have hpair : (tl.filter p).Pairwise (fun a b => decide (a.tick ≤ b.tick)) := by
    refine List.pairwise_of_forall_mem_list ?_
    intro a ha b hb
    simp [hmemt a ha, hmemt b hb]
  have hsub : List.Sublist (tl.filter p) (finalizeTimeline tl) :=
    List.sublist_mergeSort tickLE_trans tickLE_total hpair (List.filter_sublist tl)
  have hsubf : List.Sublist ((tl.filter p).filter p) ((finalizeTimeline tl).filter p) :=
    hsub.filter p
  rw [List.filter_eq_self.mpr (fun a ha => (List.mem_filter.mp ha).2)] at hsubf
  have hperm : List.Perm ((finalizeTimeline tl).filter p) (tl.filter p) :=
    (List.mergeSort_perm tl _).filter p
  exact (hsubf.eq_of_length hperm.length_eq.symm).symm

/-- C9: the pre-finalize timeline is an arbitrary interleaving of the
workers' atomically appended event sequences — it holds every appended
event exactly once but guarantees no cross-worker order — and one
finalize step establishes chronological order: the result is sorted by
tick, is a permutation of what was appended, and keeps events with equal
ticks in insertion order. -/
theorem timeline_finalize_sorted_stable (ts : List (List TimelineEvent))
    (tl : List TimelineEvent) (hin : Interleaving ts tl) (t : ℤ) :
    List.Perm tl ts.flatten ∧
    (finalizeTimeline tl).Pairwise (fun a b => a.tick ≤ b.tick) ∧
    List.Perm (finalizeTimeline tl) tl ∧
    (finalizeTimeline tl).filter (fun e => decide (e.tick = t)) =
      tl.filter (fun e => decide (e.tick = t)) := by
  refine ⟨interleaving_perm_flatten ts tl hin, ?_, List.mergeSort_perm tl _, ?_⟩
  · have h := List.sorted_mergeSort tickLE_trans tickLE_total tl
    exact h.imp fun hab => by simpa [decide_eq_true_iff] using hab
  · exact finalize_filter_tick tl t

/-- Witness for C9 on a concrete two-worker interleaving. -/
theorem timeline_finalize_sorted_stable_witness :
    List.Perm [TimelineEvent.noteOn 0 5 0 60 100, TimelineEvent.marker 1 3 0]
      ([[TimelineEvent.noteOn 0 5 0 60 100], [TimelineEvent.marker 1 3 0]] :
        List (List TimelineEvent)).flatten ∧
    (finalizeTimeline [TimelineEvent.noteOn 0 5 0 60 100,
        TimelineEvent.marker 1 3 0]).Pairwise (fun a b => a.tick ≤ b.tick) := by
  have hin : Interleaving [[TimelineEvent.noteOn 0 5 0 60 100],
      [TimelineEvent.marker 1 3 0]]
      [TimelineEvent.noteOn 0 5 0 60 100, TimelineEvent.marker 1 3 0] := by
    refine Interleaving.cons _ 0 _ [] _ rfl ?_
    refine Interleaving.cons _ 1 _ [] _ rfl ?_
    exact Interleaving.nil _ (by decide)
  have h := timeline_finalize_sorted_stable _ _ hin 3
  exact ⟨h.1, h.2.1⟩

/-! ### Claim C5: phase markers strictly increase, phases never revisited -/

/-- The (tick, phase) payload of a Marker event, if any. -/
def markerPart : TimelineEvent → Option (ℤ × ℤ)
  | .marker _ tick phase => some (tick, phase)
  | _ => none

/-- The Marker events of an event list, in emission order. -/
def markersOf (evs : List TimelineEvent) : List (ℤ × ℤ) := evs.filterMap markerPart

theorem markersOf_append (l l2 : List TimelineEvent) :
    markersOf (l ++ l2) = markersOf l ++ markersOf l2 := by
  simp [markersOf]

theorem markersOf_ite (p : Prop) [Decidable p] (a b : List TimelineEvent) :
    markersOf (if p then a else b) = if p then markersOf a else markersOf b :=
  apply_ite markersOf p a b

theorem truncInt_nonneg (q : ℚ) (h : 0 ≤ q) : 0 ≤ truncInt q := by
  unfold truncInt
  rw [if_pos h]
  exact Int.floor_nonneg.mpr h

theorem truncInt_mono_nonneg (x y : ℚ) (hx : 0 ≤ x) (hxy : x ≤ y) :
    truncInt x ≤ truncInt y := by
  unfold truncInt
  rw [if_pos hx, if_pos (hx.trans hxy)]
  exact Int.floor_le_floor hxy

theorem melodicNewPhase_nonneg (c : MelodicConfig) (ha : 0 < adjustedTicksPerPhase c)
    (hph : 1 ≤ c.numPhases) (t : ℤ) (ht : 0 ≤ t) : 0 ≤ melodicNewPhase c t := by
  unfold melodicNewPhase
  have hd : 0 ≤ t.tdiv (adjustedTicksPerPhase c) := Int.tdiv_nonneg ht ha.le
  simp only [gt_iff_lt, ha, if_true]
  split_ifs <;> omega

theorem melodicNewPhase_mono (c : MelodicConfig) (ha : 0 < adjustedTicksPerPhase c)
    (t u : ℤ) (ht : 0 ≤ t) (htu : t ≤ u) :
    melodicNewPhase c t ≤ melodicNewPhase c u := by
  unfold melodicNewPhase
  have hd : t.tdiv (adjustedTicksPerPhase c) ≤ u.tdiv (adjustedTicksPerPhase c) := by
    rw [Int.tdiv_eq_ediv ht ha.le, Int.tdiv_eq_ediv (ht.trans htu) ha.le]
    exact Int.ediv_le_ediv ha htu
  simp only [gt_iff_lt, ha, if_true]
  split_ifs <;> omega

/-- The marker-monotonicity invariant of a melodic worker: the emitted
markers have strictly increasing ticks and phases, the last marker
carries the current phase at its boundary tick, the current phase is -1
or the clamped phase of the current tick, and the current tick is
non-negative and bounded by the tick of the wall-clock bound `x`. -/
def MarkInv (c : MelodicConfig) (x : ℚ) (s : MState) : Prop :=
  List.Chain' (fun a b => a.1 < b.1 ∧ a.2 < b.2) (markersOf s.events) ∧
  (∀ m ∈ (markersOf s.events).getLast?,
    m = (s.currentPhase * adjustedTicksPerPhase c, s.currentPhase)) ∧
  (s.currentPhase = -1 ∨ s.currentPhase = melodicNewPhase c s.currentTick) ∧
  (-1 ≤ s.currentPhase) ∧
  0 ≤ s.currentTick ∧
  s.currentTick ≤ truncInt (x * c.params.ticksPerSec)

theorem schedBlock_markers (c : MelodicConfig) (b : Bool) (s : MState) :
    markersOf (schedBlock c b s).events = markersOf s.events ∧
    (schedBlock c b s).currentPhase = s.currentPhase ∧
    (schedBlock c b s).currentTick = s.currentTick := by
  simp only [schedBlock]
  repeat' split
  all_goals simp [markersOf, markerPart]

theorem phaseBlock_mark (c : MelodicConfig) (ha : 0 < adjustedTicksPerPhase c)
    (hph : 1 ≤ c.numPhases) (s : MState) (hT0 : 0 ≤ s.currentTick)
    (hchain : List.Chain' (fun a b => a.1 < b.1 ∧ a.2 < b.2) (markersOf s.events))
    (hlast : ∀ m ∈ (markersOf s.events).getLast?,
      m = (s.currentPhase * adjustedTicksPerPhase c, s.currentPhase))
    (hcp : s.currentPhase = -1 ∨ s.currentPhase ≤ melodicNewPhase c s.currentTick)
    (hcpl : -1 ≤ s.currentPhase) :
    List.Chain' (fun a b => a.1 < b.1 ∧ a.2 < b.2) (markersOf (phaseBlock c s).events) ∧
    (∀ m ∈ (markersOf (phaseBlock c s).events).getLast?,
      m = ((phaseBlock c s).currentPhase * adjustedTicksPerPhase c,
        (phaseBlock c s).currentPhase)) ∧
    (phaseBlock c s).currentPhase = melodicNewPhase c s.currentTick ∧
    s.currentPhase ≤ (phaseBlock c s).currentPhase ∧
    (phaseBlock c s).currentTick = s.currentTick := by
  have hnp0 : 0 ≤ melodicNewPhase c s.currentTick :=
    melodicNewPhase_nonneg c ha hph s.currentTick hT0
  by_cases hb : melodicNewPhase c s.currentTick ≠ s.currentPhase
  · have hlt : s.currentPhase < melodicNewPhase c s.currentTick := by
      rcases hcp with h | h <;> omega
    have hblock : markersOf (phaseBlock c s).events =
        markersOf s.events ++
          [(melodicNewPhase c s.currentTick * adjustedTicksPerPhase c,
            melodicNewPhase c s.currentTick)] ∧
        (phaseBlock c s).currentPhase = melodicNewPhase c s.currentTick ∧
        (phaseBlock c s).currentTick = s.currentTick := by
      simp only [phaseBlock]
      rw [if_pos hb]
      split <;> split <;>
        exact ⟨by simp [markersOf_append, markersOf, markerPart], rfl, rfl⟩
    obtain ⟨hmarks, hcp2, htick⟩ := hblock
    refine ⟨?_, ?_, hcp2, by omega, htick⟩
    · rw [hmarks, List.chain'_append]
      refine ⟨hchain, List.chain'_singleton _, ?_⟩
      intro m hm y hy
      simp only [List.head?_cons, Option.mem_def, Option.some.injEq] at hy
      subst hy
      rw [hlast m hm]
      constructor
      · exact mul_lt_mul_of_pos_right hlt ha
      · exact hlt
    · rw [hmarks, hcp2]
      intro m hm
      rw [List.getLast?_concat] at hm
      simpa using hm.symm
  · simp only [ne_eq, not_not] at hb
    have hsame : phaseBlock c s = s := by
      simp [phaseBlock, hb]
    rw [hsame, hb]
    exact ⟨hchain, by rw [← hb] at hlast ⊢; simpa [hb] using hlast, rfl, le_refl _, rfl⟩

/-- Wall-clock samples bounded below by `x` and non-decreasing, as the
monotone `high_resolution_clock` readings of the loop are. -/
def WallsMono : ℚ → List (ℚ × ℚ) → Prop
  | _, [] => True
  | x, w :: rest => x ≤ w.1 ∧ WallsMono w.1 rest

/-- The last wall-clock value of a sample list (or the bound itself). -/
def wallBound : ℚ → List (ℚ × ℚ) → ℚ
  | x, [] => x
  | _, w :: rest => wallBound w.1 rest

theorem wallsMono_append :
    ∀ (l1 l2 : List (ℚ × ℚ)) (x : ℚ), WallsMono x (l1 ++ l2) →
      WallsMono x l1 ∧ WallsMono (wallBound x l1) l2 := by
  intro l1
  induction l1 with
  | nil => exact fun l2 x h => ⟨trivial, h⟩
  | cons w r ih =>
    intro l2 x h
    obtain ⟨h1, h2⟩ := h
    obtain ⟨h3, h4⟩ := ih l2 w.1 h2
    exact ⟨⟨h1, h3⟩, h4⟩

theorem wallBound_nonneg :
    ∀ (l : List (ℚ × ℚ)) (x : ℚ), 0 ≤ x → WallsMono x l → 0 ≤ wallBound x l := by
  intro l
  induction l with
  | nil => exact fun x hx _ => hx
  | cons w r ih =>
    intro x hx h
    exact ih w.1 (hx.trans h.1) h.2

theorem melodicStep_mark (c : MelodicConfig) (ha : 0 < adjustedTicksPerPhase c)
    (hph : 1 ≤ c.numPhases) (htps : 0 ≤ c.params.ticksPerSec)
    (s : MState) (sample : ℚ × ℚ) (x : ℚ)
    (hInv : MarkInv c x s) (hx0 : 0 ≤ x) (hxw : x ≤ sample.1) :
    MarkInv c sample.1 (melodicStep c s sample) ∧
    s.currentPhase ≤ (melodicStep c s sample).currentPhase := by
  obtain ⟨hchain, hlast, hcp, hcpl, hT0, hTb⟩ := hInv
  have hbound : truncInt (x * c.params.ticksPerSec) ≤
      truncInt (sample.1 * c.params.ticksPerSec) :=
    truncInt_mono_nonneg _ _ (mul_nonneg hx0 htps) (mul_le_mul_of_nonneg_right hxw htps)
  unfold melodicStep
  by_cases hf : s.finished
  · rw [if_pos hf]
    exact ⟨⟨hchain, hlast, hcp, hcpl, hT0, le_trans hTb hbound⟩, le_refl _⟩
  · rw [if_neg hf]
    by_cases hd : sample.1 ≥ adjustedDurationSec c
    · rw [if_pos hd]
      by_cases hn : s.noteIsOn
      · rw [if_pos hn]
        refine ⟨⟨?_, ?_, hcp, hcpl, hT0, le_trans hTb hbound⟩, le_refl _⟩
        · simpa [markersOf_append, markersOf, markerPart] using hchain
        · simpa [markersOf_append, markersOf, markerPart] using hlast
      · rw [if_neg hn]
        exact ⟨⟨hchain, hlast, hcp, hcpl, hT0, le_trans hTb hbound⟩, le_refl _⟩
    · rw [if_neg hd]
      show MarkInv c sample.1
          { schedBlock c (isScheduledOf (sample.1 - s.lastWallTime) (sample.2 - s.lastCpuTime))
              (phaseBlock c { s with currentTick := truncInt (sample.1 * c.params.ticksPerSec) })
            with lastWallTime := sample.1, lastCpuTime := sample.2 } ∧
        s.currentPhase ≤
          ({ schedBlock c (isScheduledOf (sample.1 - s.lastWallTime) (sample.2 - s.lastCpuTime))
              (phaseBlock c { s with currentTick := truncInt (sample.1 * c.params.ticksPerSec) })
            with lastWallTime := sample.1, lastCpuTime := sample.2 } : MState).currentPhase
      have hT0' : 0 ≤ truncInt (sample.1 * c.params.ticksPerSec) :=
        truncInt_nonneg _ (mul_nonneg (hx0.trans hxw) htps)
      have hTold : s.currentTick ≤ truncInt (sample.1 * c.params.ticksPerSec) :=
        le_trans hTb hbound
      have hcpm : s.currentPhase = -1 ∨
          s.currentPhase ≤ melodicNewPhase c (truncInt (sample.1 * c.params.ticksPerSec)) := by
        rcases hcp with h | h
        · exact Or.inl h
        · refine Or.inr ?_
          rw [h]
          exact melodicNewPhase_mono c ha s.currentTick _ hT0 hTold
      have hpm := phaseBlock_mark c ha hph
        { s with currentTick := truncInt (sample.1 * c.params.ticksPerSec) } hT0'
        hchain hlast hcpm hcpl
      obtain ⟨hq1, hq2, hq3, hq4, hq5⟩ := hpm
      obtain ⟨hm1, hm2, hm3⟩ := schedBlock_markers c
        (isScheduledOf (sample.1 - s.lastWallTime) (sample.2 - s.lastCpuTime))
        (phaseBlock c { s with currentTick := truncInt (sample.1 * c.params.ticksPerSec) })
      refine ⟨⟨?_, ?_, ?_, ?_, ?_, ?_⟩, ?_⟩
      · show List.Chain' _ (markersOf (schedBlock c _ (phaseBlock c _)).events)
        rw [hm1]
        exact hq1
      · show ∀ m ∈ (markersOf (schedBlock c _ (phaseBlock c _)).events).getLast?, _
        rw [hm1]
        intro m hm
        rw [hq2 m hm]
        rw [hm2]
      · show (schedBlock c _ (phaseBlock c _)).currentPhase = -1 ∨
          (schedBlock c _ (phaseBlock c _)).currentPhase =
            melodicNewPhase c (schedBlock c _ (phaseBlock c _)).currentTick
        refine Or.inr ?_
        rw [hm2, hm3, hq3, hq5]
      · show -1 ≤ (schedBlock c _ (phaseBlock c _)).currentPhase
        rw [hm2]
        exact le_trans hcpl hq4
      · show 0 ≤ (schedBlock c _ (phaseBlock c _)).currentTick
        rw [hm3, hq5]
        exact hT0'
      · show (schedBlock c _ (phaseBlock c _)).currentTick ≤ _
        rw [hm3, hq5]
      · show s.currentPhase ≤ (schedBlock c _ (phaseBlock c _)).currentPhase
        rw [hm2]
        exact hq4

theorem melodicFold_mark (c : MelodicConfig) (ha : 0 < adjustedTicksPerPhase c)
    (hph : 1 ≤ c.numPhases) (htps : 0 ≤ c.params.ticksPerSec) :
    ∀ (samples : List (ℚ × ℚ)) (s : MState) (x : ℚ),
      MarkInv c x s → 0 ≤ x → WallsMono x samples →
      MarkInv c (wallBound x samples) (samples.foldl (melodicStep c) s) ∧
      s.currentPhase ≤ (samples.foldl (melodicStep c) s).currentPhase := by
  intro samples
  induction samples with
  | nil => exact fun s x h hx _ => ⟨h, le_refl _⟩
  | cons a rest ih =>
    intro s x h hx hW
    have hstep := melodicStep_mark c ha hph htps s a x h hx hW.1
    have hrec := ih (melodicStep c s a) a.1 hstep.1 (hx.trans hW.1) hW.2
    exact ⟨hrec.1, le_trans hstep.2 hrec.2⟩

theorem drumTicksPerPhase_pos (c : DrumConfig) (hdur : 1 ≤ c.durationSec) :
    0 < drumTicksPerPhase c := by
  simp only [drumTicksPerPhase]
  split_ifs <;> omega

theorem drumNewPhase_nonneg (c : DrumConfig) (ha : 0 < drumTicksPerPhase c)
    (hph : 1 ≤ c.numPhases) (t : ℤ) (ht : 0 ≤ t) : 0 ≤ drumNewPhase c t := by
  unfold drumNewPhase
  have hd : 0 ≤ t.tdiv (drumTicksPerPhase c) := Int.tdiv_nonneg ht ha.le
  simp only [gt_iff_lt, ha, if_true]
  split_ifs <;> omega

theorem drumNewPhase_mono (c : DrumConfig) (ha : 0 < drumTicksPerPhase c)
    (t u : ℤ) (ht : 0 ≤ t) (htu : t ≤ u) :
    drumNewPhase c t ≤ drumNewPhase c u := by
  unfold drumNewPhase
  have hd : t.tdiv (drumTicksPerPhase c) ≤ u.tdiv (drumTicksPerPhase c) := by
    rw [Int.tdiv_eq_ediv ht ha.le, Int.tdiv_eq_ediv (ht.trans htu) ha.le]
    exact Int.ediv_le_ediv ha htu
  simp only [gt_iff_lt, ha, if_true]
  split_ifs <;> omega

/-- The marker-monotonicity invariant of the drum worker, mirroring
`MarkInv`. -/
def DMarkInv (c : DrumConfig) (x : ℚ) (s : DState) : Prop :=
  List.Chain' (fun a b => a.1 < b.1 ∧ a.2 < b.2) (markersOf s.events) ∧
  (∀ m ∈ (markersOf s.events).getLast?,
    m = (s.currentPhase * drumTicksPerPhase c, s.currentPhase)) ∧
  (s.currentPhase = -1 ∨ s.currentPhase = drumNewPhase c s.currentTick) ∧
  (-1 ≤ s.currentPhase) ∧
  0 ≤ s.currentTick ∧
  s.currentTick ≤ truncInt (x * c.params.ticksPerSec)

theorem markersOf_nil : markersOf [] = [] := rfl

theorem markersOf_drumHit (track stepTick tps pitch vel : ℤ) :
    markersOf (drumHit track stepTick tps pitch vel) = [] := rfl

theorem drumHitBlock_mark (c : DrumConfig) (s : DState) (h0 : 0 ≤ s.currentPhase) :
    markersOf (drumHitBlock c s).events = markersOf s.events ∧
    (drumHitBlock c s).currentPhase = s.currentPhase ∧
    (drumHitBlock c s).currentTick = s.currentTick := by
  simp only [drumHitBlock]
  split
  · rw [if_neg (not_lt.mpr h0)]
    refine ⟨?_, rfl, rfl⟩
    simp [markersOf_append, markersOf_ite, markersOf_drumHit, markersOf_nil]
  · exact ⟨rfl, rfl, rfl⟩

theorem drumMarkerBlock_mark (c : DrumConfig) (ha : 0 < drumTicksPerPhase c)
    (hph : 1 ≤ c.numPhases) (s : DState) (hT0 : 0 ≤ s.currentTick)
    (hchain : List.Chain' (fun a b => a.1 < b.1 ∧ a.2 < b.2) (markersOf s.events))
    (hlast : ∀ m ∈ (markersOf s.events).getLast?,
      m = (s.currentPhase * drumTicksPerPhase c, s.currentPhase))
    (hcp : s.currentPhase = -1 ∨ s.currentPhase ≤ drumNewPhase c s.currentTick)
    (hcpl : -1 ≤ s.currentPhase) :
    List.Chain' (fun a b => a.1 < b.1 ∧ a.2 < b.2) (markersOf (drumMarkerBlock c s).events) ∧
    (∀ m ∈ (markersOf (drumMarkerBlock c s).events).getLast?,
      m = ((drumMarkerBlock c s).currentPhase * drumTicksPerPhase c,
        (drumMarkerBlock c s).currentPhase)) ∧
    (drumMarkerBlock c s).currentPhase = drumNewPhase c s.currentTick ∧
    s.currentPhase ≤ (drumMarkerBlock c s).currentPhase ∧
    (drumMarkerBlock c s).currentTick = s.currentTick ∧
    0 ≤ (drumMarkerBlock c s).currentPhase := by
  have hnp0 : 0 ≤ drumNewPhase c s.currentTick :=
    drumNewPhase_nonneg c ha hph s.currentTick hT0
  by_cases hb : drumNewPhase c s.currentTick ≠ s.currentPhase
  · have hlt : s.currentPhase < drumNewPhase c s.currentTick := by
      rcases hcp with h | h <;> omega
    have hblock : markersOf (drumMarkerBlock c s).events =
        markersOf s.events ++
          [(drumNewPhase c s.currentTick * drumTicksPerPhase c,
            drumNewPhase c s.currentTick)] ∧
        (drumMarkerBlock c s).currentPhase = drumNewPhase c s.currentTick ∧
        (drumMarkerBlock c s).currentTick = s.currentTick := by
      simp only [drumMarkerBlock]
      rw [if_pos hb]
      exact ⟨by simp [markersOf_append, markersOf, markerPart], rfl, rfl⟩
    obtain ⟨hmarks, hcp2, htick⟩ := hblock
    refine ⟨?_, ?_, hcp2, by omega, htick, by omega⟩
    · rw [hmarks, List.chain'_append]
      refine ⟨hchain, List.chain'_singleton _, ?_⟩
      intro m hm y hy
      simp only [List.head?_cons, Option.mem_def, Option.some.injEq] at hy
      subst hy
      rw [hlast m hm]
      exact ⟨mul_lt_mul_of_pos_right hlt ha, hlt⟩
    · rw [hmarks, hcp2]
      intro m hm
      rw [List.getLast?_concat] at hm
      simpa using hm.symm
  · simp only [ne_eq, not_not] at hb
    have hsame : drumMarkerBlock c s = s := by
      simp [drumMarkerBlock, hb]
    rw [hsame, hb]
    exact ⟨hchain, by rw [← hb] at hlast ⊢; simpa [hb] using hlast, rfl, le_refl _, rfl,
      by omega⟩

theorem drumStep_mark (c : DrumConfig) (ha : 0 < drumTicksPerPhase c)
    (hph : 1 ≤ c.numPhases) (htps : 0 ≤ c.params.ticksPerSec)
    (s : DState) (sample : ℚ × ℚ) (x : ℚ)
    (hInv : DMarkInv c x s) (hx0 : 0 ≤ x) (hxw : x ≤ sample.1) :
    DMarkInv c sample.1 (drumStep c s sample) ∧
    s.currentPhase ≤ (drumStep c s sample).currentPhase := by
  obtain ⟨hchain, hlast, hcp, hcpl, hT0, hTb⟩ := hInv
  have hbound : truncInt (x * c.params.ticksPerSec) ≤
      truncInt (sample.1 * c.params.ticksPerSec) :=
    truncInt_mono_nonneg _ _ (mul_nonneg hx0 htps) (mul_le_mul_of_nonneg_right hxw htps)
  unfold drumStep
  by_cases hf : s.finished
  · rw [if_pos hf]
    exact ⟨⟨hchain, hlast, hcp, hcpl, hT0, le_trans hTb hbound⟩, le_refl _⟩
  · rw [if_neg hf]
    by_cases hd2 : sample.1 ≥ (c.durationSec : ℚ)
    · rw [if_pos hd2]
      exact ⟨⟨hchain, hlast, hcp, hcpl, hT0, le_trans hTb hbound⟩, le_refl _⟩
    · rw [if_neg hd2]
      show DMarkInv c sample.1
          (drumHitBlock c (drumMarkerBlock c
            { s with currentTick := truncInt (sample.1 * c.params.ticksPerSec) })) ∧
        s.currentPhase ≤ (drumHitBlock c (drumMarkerBlock c
          { s with currentTick := truncInt (sample.1 * c.params.ticksPerSec) })).currentPhase
      have hT0' : 0 ≤ truncInt (sample.1 * c.params.ticksPerSec) :=
        truncInt_nonneg _ (mul_nonneg (hx0.trans hxw) htps)
      have hTold : s.currentTick ≤ truncInt (sample.1 * c.params.ticksPerSec) :=
        le_trans hTb hbound
      have hcpm : s.currentPhase = -1 ∨
          s.currentPhase ≤ drumNewPhase c (truncInt (sample.1 * c.params.ticksPerSec)) := by
        rcases hcp with h | h
        · exact Or.inl h
        · refine Or.inr ?_
          rw [h]
          exact drumNewPhase_mono c ha s.currentTick _ hT0 hTold
      have hpm := drumMarkerBlock_mark c ha hph
        { s with currentTick := truncInt (sample.1 * c.params.ticksPerSec) } hT0'
        hchain hlast hcpm hcpl
      obtain ⟨hq1, hq2, hq3, hq4, hq5, hq6⟩ := hpm
      obtain ⟨hm1, hm2, hm3⟩ := drumHitBlock_mark c
        (drumMarkerBlock c { s with currentTick := truncInt (sample.1 * c.params.ticksPerSec) })
        hq6
      refine ⟨⟨?_, ?_, ?_, ?_, ?_, ?_⟩, ?_⟩
      · rw [hm1]
        exact hq1
      · rw [hm1]
        intro m hm
        rw [hq2 m hm, hm2]
      · refine Or.inr ?_
        rw [hm2, hm3, hq3, hq5]
      · rw [hm2]
        exact le_trans hcpl hq4
      · rw [hm3, hq5]
        exact hT0'
      · rw [hm3, hq5]
      · rw [hm2]
        exact hq4

theorem drumFold_mark (c : DrumConfig) (ha : 0 < drumTicksPerPhase c)
    (hph : 1 ≤ c.numPhases) (htps : 0 ≤ c.params.ticksPerSec) :
    ∀ (samples : List (ℚ × ℚ)) (s : DState) (x : ℚ),
      DMarkInv c x s → 0 ≤ x → WallsMono x samples →
      DMarkInv c (wallBound x samples) (samples.foldl (drumStep c) s) ∧
      s.currentPhase ≤ (samples.foldl (drumStep c) s).currentPhase := by
  intro samples
  induction samples with
  | nil => exact fun s x h hx _ => ⟨h, le_refl _⟩
  | cons a rest ih =>
    intro s x h hx hW
    have hstep := drumStep_mark c ha hph htps s a x h hx hW.1
    have hrec := ih (drumStep c s a) a.1 hstep.1 (hx.trans hW.1) hW.2
    exact ⟨hrec.1, le_trans hstep.2 hrec.2⟩

/-- C5: under positive timing constants and non-decreasing, non-negative
wall-clock samples, the Marker events a worker emits have strictly
increasing ticks and strictly increasing phase labels (so the Marker for
phase p+1 sits strictly after the one for phase p), and the worker's
current phase index never decreases as more samples arrive — a phase is
never revisited; this holds for melodic workers and for the drum worker. -/
theorem phase_markers_monotone (c : MelodicConfig) (snips : List Snippet)
    (pre suf : List (ℚ × ℚ)) (d : DrumConfig) (dpre dsuf : List (ℚ × ℚ))
    (hdur : 1 ≤ c.durationSec) (hph : 1 ≤ c.numPhases) (htpq : 1 ≤ c.params.TPQ)
    (htempo : 1 ≤ c.params.TEMPO) (hbeats : 1 ≤ c.params.BEATS_PER_BAR)
    (hW : WallsMono 0 (pre ++ suf))
    (hddur : 1 ≤ d.durationSec) (hdph : 1 ≤ d.numPhases) (hdtpq : 1 ≤ d.params.TPQ)
    (hdtempo : 1 ≤ d.params.TEMPO)
    (hdW : WallsMono 0 (dpre ++ dsuf)) :
    List.Chain' (fun a b => a.1 < b.1 ∧ a.2 < b.2)
      (markersOf (melodicRun c snips (pre ++ suf)).events) ∧
    (melodicRun c snips pre).currentPhase ≤
      (melodicRun c snips (pre ++ suf)).currentPhase ∧
    List.Chain' (fun a b => a.1 < b.1 ∧ a.2 < b.2)
      (markersOf (drumRun d (dpre ++ dsuf)).events) ∧
    (drumRun d dpre).currentPhase ≤ (drumRun d (dpre ++ dsuf)).currentPhase := by
  have hbar := ticksPerBar_pos c.params htpq hbeats
  have hraw := initialTicksPerPhase_pos c hdur hph htpq htempo
  have ha : 0 < adjustedTicksPerPhase c :=
    lt_of_lt_of_le hbar (adjustedTicksPerPhase_ge_bar c hbar hraw)
  have htps : 0 ≤ c.params.ticksPerSec := (ticksPerSec_pos c.params htpq htempo).le
  have h0 : MarkInv c 0 (melodicInit c snips) := by
    refine ⟨?_, ?_, Or.inl rfl, by simp [melodicInit], le_refl 0, ?_⟩
    · simp [melodicInit, markersOf, markerPart]
    · simp [melodicInit, markersOf, markerPart]
    · simp [melodicInit, truncInt]
  obtain ⟨hWpre, hWsuf⟩ := wallsMono_append pre suf 0 hW
  have hb0 : 0 ≤ wallBound 0 pre := wallBound_nonneg pre 0 le_rfl hWpre
  have hfold1 := melodicFold_mark c ha hph htps pre (melodicInit c snips) 0 h0 le_rfl hWpre
  have hfold2 := melodicFold_mark c ha hph htps suf _ (wallBound 0 pre) hfold1.1 hb0 hWsuf
  have hsplit : melodicRun c snips (pre ++ suf) =
      suf.foldl (melodicStep c) (melodicRun c snips pre) := by
    simp [melodicRun, List.foldl_append]
  have hda : 0 < drumTicksPerPhase d := drumTicksPerPhase_pos d hddur
  have hdtps : 0 ≤ d.params.ticksPerSec := (ticksPerSec_pos d.params hdtpq hdtempo).le
  have hd0 : DMarkInv d 0 (drumInit d) := by
    refine ⟨?_, ?_, Or.inl rfl, by simp [drumInit], le_refl 0, ?_⟩
    · simp [drumInit, markersOf, markerPart]
    · simp [drumInit, markersOf, markerPart]
    · simp [drumInit, truncInt]
  obtain ⟨hdWpre, hdWsuf⟩ := wallsMono_append dpre dsuf 0 hdW
  have hdb0 : 0 ≤ wallBound 0 dpre := wallBound_nonneg dpre 0 le_rfl hdWpre
  have hdfold1 := drumFold_mark d hda hdph hdtps dpre (drumInit d) 0 hd0 le_rfl hdWpre
  have hdfold2 := drumFold_mark d hda hdph hdtps dsuf _ (wallBound 0 dpre) hdfold1.1 hdb0 hdWsuf
  have hdsplit : drumRun d (dpre ++ dsuf) = dsuf.foldl (drumStep d) (drumRun d dpre) := by
    simp [drumRun, List.foldl_append]
  refine ⟨?_, ?_, ?_, ?_⟩
  · rw [hsplit]
    exact hfold2.1.1
  · rw [hsplit]
    exact hfold2.2
  · rw [hdsplit]
    exact hdfold2.1.1
  · rw [hdsplit]
    exact hdfold2.2

/-- Witness for C5 on concrete melodic and drum runs crossing a phase
boundary. -/
theorem phase_markers_monotone_witness :
    List.Chain' (fun a b => a.1 < b.1 ∧ a.2 < b.2)
      (markersOf (melodicRun ⟨⟨480, 120, 4⟩, 4, 4, 16, 2, 0⟩ []
        ([(1/10, 1/10)] ++ [(81/10, 0)])).events) ∧
    List.Chain' (fun a b => a.1 < b.1 ∧ a.2 < b.2)
      (markersOf (drumRun ⟨⟨480, 120, 4⟩, 0, 16, 2, [⟨[], [], [], []⟩, ⟨[], [], [], []⟩]⟩
        ([(0, 0)] ++ [(161/20, 0)])).events) := by
  have h := phase_markers_monotone ⟨⟨480, 120, 4⟩, 4, 4, 16, 2, 0⟩ []
    [(1/10, 1/10)] [(81/10, 0)]
    ⟨⟨480, 120, 4⟩, 0, 16, 2, [⟨[], [], [], []⟩, ⟨[], [], [], []⟩]⟩
    [(0, 0)] [(161/20, 0)]
    (by decide) (by decide) (by decide) (by decide) (by decide)
    ⟨by norm_num, by norm_num, trivial⟩
    (by decide) (by decide) (by decide) (by decide)
    ⟨by norm_num, by norm_num, trivial⟩
  exact ⟨h.1, h.2.2.1⟩

end ThreadMusic
